import Mathlib

set_option maxHeartbeats 1000000

/-
Verification of the UTF-8-safe clipping and splitting helpers of
bridge/helper/helper.go (matterbridge).

Go strings are modelled as `List Nat` of byte values; Go `int` parameters are
modelled as `Int`.  A Go runtime panic (slice bounds out of range) is modelled
by an `Option` result being `none`.  The relevant parts of Go's standard
`unicode/utf8` and `strings` packages, which the helper functions call, are
modelled byte-for-byte from the Go standard library sources.
-/

namespace Helper

/-- Byte string of the default clipping marker " <clipped message>". -/
def defaultClip : List Nat :=
  [32, 60, 99, 108, 105, 112, 112, 101, 100, 32, 109, 101, 115, 115, 97, 103, 101, 62]

/-- The effective marker: Go code substitutes the default when the caller
passes the empty string. -/
def effMarker (cm : List Nat) : List Nat :=
  if cm = [] then defaultClip else cm

/-- Go `utf8.RuneStart(b)`, i.e. `b&0xC0 != 0x80`: for byte values this says
the byte is not a UTF-8 continuation byte.  (For `b < 256` the arithmetic
form below agrees with the bit-mask form in the Go source.) -/
def runeStart (b : Nat) : Bool :=
  decide (b < 0x80 ∨ 0xC0 ≤ b)

/-- The two-byte arm of Go `utf8.DecodeRuneInString` (first byte in
[0xC2, 0xDF]); `rest` is the bytes after the first one. -/
def goDec2 (b0 : Nat) : List Nat → Nat × Nat
  | b1 :: _ =>
    if 0x80 ≤ b1 ∧ b1 ≤ 0xBF then ((b0 % 0x20) * 0x40 + b1 % 0x40, 2)
    else (0xFFFD, 1)
  | [] => (0xFFFD, 1)

/-- The three-byte arm of Go `utf8.DecodeRuneInString` (first byte in
[0xE0, 0xEF]); the accepted range of the second byte depends on the first
byte, which excludes overlong encodings and surrogates. -/
def goDec3 (b0 : Nat) : List Nat → Nat × Nat
  | b1 :: b2 :: _ =>
    if (if b0 = 0xE0 then 0xA0 ≤ b1 ∧ b1 ≤ 0xBF
        else if b0 = 0xED then 0x80 ≤ b1 ∧ b1 ≤ 0x9F
        else 0x80 ≤ b1 ∧ b1 ≤ 0xBF) ∧ (0x80 ≤ b2 ∧ b2 ≤ 0xBF) then
      ((b0 % 0x10) * 0x1000 + (b1 % 0x40) * 0x40 + b2 % 0x40, 3)
    else (0xFFFD, 1)
  | _ => (0xFFFD, 1)

/-- The four-byte arm of Go `utf8.DecodeRuneInString` (first byte in
[0xF0, 0xF4]). -/
def goDec4 (b0 : Nat) : List Nat → Nat × Nat
  | b1 :: b2 :: b3 :: _ =>
    if (if b0 = 0xF0 then 0x90 ≤ b1 ∧ b1 ≤ 0xBF
        else if b0 = 0xF4 then 0x80 ≤ b1 ∧ b1 ≤ 0x8F
        else 0x80 ≤ b1 ∧ b1 ≤ 0xBF) ∧ (0x80 ≤ b2 ∧ b2 ≤ 0xBF) ∧
       (0x80 ≤ b3 ∧ b3 ≤ 0xBF) then
      ((b0 % 0x8) * 0x40000 + (b1 % 0x40) * 0x1000 + (b2 % 0x40) * 0x40 + b3 % 0x40, 4)
    else (0xFFFD, 1)
  | _ => (0xFFFD, 1)

/-- Go `utf8.DecodeRuneInString`: decode the first rune of the byte string,
returning the rune value and its size.  Invalid, truncated, overlong and
surrogate encodings yield `(0xFFFD, 1)` (`RuneError`); the empty string
yields `(0xFFFD, 0)`, exactly as in the Go standard library. -/
def goDecodeRune (s : List Nat) : Nat × Nat :=
  match s with
  | [] => (0xFFFD, 0)
  | b0 :: rest =>
    if b0 < 0x80 then (b0, 1)
    else if b0 < 0xC2 ∨ 0xF4 < b0 then (0xFFFD, 1)
    else if b0 ≤ 0xDF then goDec2 b0 rest
    else if b0 ≤ 0xEF then goDec3 b0 rest
    else goDec4 b0 rest

/-- The backward scan of Go `utf8.DecodeLastRuneInString`: the largest index
`j` with `lim ≤ j ≤ i` such that `s[j]` is not a continuation byte, scanning
downward from `i`. -/
def findStart (s : List Nat) (lim : Nat) : Nat → Option Nat
  | 0 =>
    if lim = 0 then (if runeStart (s.getD 0 0) then some 0 else none) else none
  | i + 1 =>
    if i + 1 < lim then none
    else if runeStart (s.getD (i + 1) 0) then some (i + 1)
    else findStart s lim i

/-- Go `utf8.DecodeLastRuneInString`: decode the last rune of the byte
string.  It scans at most `UTFMax = 4` bytes backwards for a rune start
(falling back to `lim-1`, clamped at 0, exactly as the Go loop does), decodes
forward from there, and reports `RuneError` when the decoded rune does not
end exactly at the end of the string. -/
def goDecodeLastRune (s : List Nat) : Nat × Nat :=
  let e := s.length
  if e = 0 then (0xFFFD, 0)
  else
    let last := s.getD (e - 1) 0
    if last < 0x80 then (last, 1)
    else
      let lim := e - 4
      let start :=
        if 2 ≤ e then
          match findStart s lim (e - 2) with
          | some j => j
          | none => lim - 1
        else 0
      let rn := goDecodeRune (s.drop start)
      if start + rn.2 = e then rn else (0xFFFD, 1)

/-- The test `r == utf8.RuneError` applied to the last rune, as used by
ClipMessage and ClipOrSplitMessage. -/
def lastRuneIsError (s : List Nat) : Bool :=
  decide ((goDecodeLastRune s).1 = 0xFFFD)

/-- The backward boundary loop of ClipMessage
(`for len(text) > 0 { if DecodeLastRune is RuneError { drop last byte } else break }`),
with fuel equal to the length, which bounds the iterations exactly. -/
def clipBackupAux : Nat → List Nat → List Nat
  | 0, s => s
  | fuel + 1, s =>
    if s = [] then s
    else if lastRuneIsError s then clipBackupAux fuel s.dropLast
    else s

/-- The backward boundary loop of ClipMessage, entered at the full buffer. -/
def clipBackup (s : List Nat) : List Nat :=
  clipBackupAux s.length s

/-- Go `ClipMessage(text, length, clippingMessage)`.  `none` models the Go
runtime panic on the negative slice index `text[:length-len(clippingMessage)]`
that occurs when `length < len(clippingMessage)` and the text is too long. -/
def ClipMessage (text : List Nat) (length : Int) (cm0 : List Nat) : Option (List Nat) :=
  let cm := effMarker cm0
  if (text.length : Int) > length then
    let k : Int := length - cm.length
    if k < 0 then none
    else some (clipBackup (text.take k.toNat) ++ cm)
  else some text

/-- The `wasted` loop of ClipOrSplitMessage: starting from `wasted` with the
chunk assigned so far, repeatedly slice `remaining[:length-wasted]` and back
up one byte while the last rune is RuneError, up to the `wasted < 4` and
`wasted < length` guards.  Fuel `4 - wasted` bounds the iterations exactly
(when fuel runs out the guard `wasted < 4` fails as well). -/
def splitChunkAux (remaining : List Nat) (length : Int) : Nat → Nat → List Nat → List Nat
  | 0, _, chunk => chunk
  | fuel + 1, wasted, chunk =>
    if wasted < 4 ∧ (wasted : Int) < length then
      let chunk' := remaining.take (length - wasted).toNat
      if lastRuneIsError chunk' then splitChunkAux remaining length fuel (wasted + 1) chunk'
      else chunk'
    else chunk

/-- One chunk computation of ClipOrSplitMessage (the inner `wasted` loop,
entered with `wasted = 0` and the zero-value chunk `""`). -/
def splitChunk (remaining : List Nat) (length : Int) : List Nat :=
  splitChunkAux remaining length 4 0 []

/-- The outer splitting loop of ClipOrSplitMessage.  The fuel is
`(splitMax-1).toNat`: since `msgParts` starts empty and grows by one per
iteration, the guard `len(msgParts) < splitMax-1` permits exactly that many
iterations.  Returns the emitted parts and the remaining text. -/
def splitLoop (length : Int) : Nat → List Nat → List (List Nat) × List Nat
  | 0, remaining => ([], remaining)
  | fuel + 1, remaining =>
    if (remaining.length : Int) > length then
      let chunk := splitChunk remaining length
      let r := splitLoop length fuel (remaining.drop chunk.length)
      (chunk :: r.1, r.2)
    else ([], remaining)

/-- Go `ClipOrSplitMessage(text, length, clippingMessage, splitMax)`.  `none`
models a Go runtime panic inside the final ClipMessage call. -/
def ClipOrSplitMessage (text : List Nat) (length : Int) (cm : List Nat)
    (splitMax : Int) : Option (List (List Nat)) :=
  let r := splitLoop length (splitMax - 1).toNat text
  (ClipMessage r.2 length cm).map (fun last => r.1 ++ [last])

/-- Go `unicode.IsSpace`: the Unicode White_Space runes. -/
def isSpaceRune (r : Nat) : Bool :=
  decide (r = 9 ∨ r = 10 ∨ r = 11 ∨ r = 12 ∨ r = 13 ∨ r = 32 ∨ r = 0x85 ∨ r = 0xA0 ∨
    r = 0x1680 ∨ (0x2000 ≤ r ∧ r ≤ 0x200A) ∨ r = 0x2028 ∨ r = 0x2029 ∨ r = 0x202F ∨
    r = 0x205F ∨ r = 0x3000)

/-- Left half of Go `strings.TrimSpace`: repeatedly decode the first rune and
drop it while it is white space (an invalid byte decodes to `RuneError`,
which is not white space, so trimming stops there, as in Go).  Fuel equal to
the length bounds the iterations. -/
def trimLeftAux : Nat → List Nat → List Nat
  | 0, s => s
  | fuel + 1, s =>
    if s = [] then s
    else
      let rn := goDecodeRune s
      if isSpaceRune rn.1 then trimLeftAux fuel (s.drop rn.2) else s

/-- Right half of Go `strings.TrimSpace`: repeatedly decode the last rune and
drop it while it is white space. -/
def trimRightAux : Nat → List Nat → List Nat
  | 0, s => s
  | fuel + 1, s =>
    if s = [] then s
    else
      let rn := goDecodeLastRune s
      if isSpaceRune rn.1 then trimRightAux fuel (s.take (s.length - rn.2)) else s

/-- Go `strings.TrimSpace`. -/
def trimSpace (s : List Nat) : List Nat :=
  trimRightAux s.length (trimLeftAux s.length s)

/-- Go `strings.Split(s, "\n")`: split on the newline byte 10.  Always
returns a nonempty list; `Split("", "\n") = [""]`. -/
def splitOnNl : List Nat → List (List Nat)
  | [] => [[]]
  | b :: rest =>
    if b = 10 then [] :: splitOnNl rest
    else
      match splitOnNl rest with
      | p :: ps => (b :: p) :: ps
      | [] => [[b]]

/-- The byte positions visited by Go's `for i := range line` loop: each
position advances by the size of the rune decoded there (1 for an invalid
byte), exactly as Go's range-over-string does. -/
def runePosAux (line : List Nat) : Nat → Nat → List Nat
  | 0, _ => []
  | fuel + 1, p =>
    if p < line.length then p :: runePosAux line fuel (p + (goDecodeRune (line.drop p)).2)
    else []

/-- All rune positions of a byte string. -/
def runePositions (line : List Nat) : List Nat :=
  runePosAux line line.length 0

/-- Go slice `line[a:b]`. -/
def goSub (line : List Nat) (a b : Nat) : List Nat :=
  (line.take b).drop a

/-- One iteration of the per-line splitting loop of GetSubLines, with state
(emitted pieces, splitStart, startOfPreviousRune) and the current byte
position `i`. -/
def subLineStep (line : List Nat) (maxLineLength : Int) (cm : List Nat)
    (st : List (List Nat) × Nat × Nat) (i : Nat) : List (List Nat) × Nat × Nat :=
  if (i : Int) - st.2.1 > maxLineLength - cm.length then
    (st.1 ++ [goSub line st.2.1 st.2.2 ++ cm], st.2.2, i)
  else (st.1, st.2.1, i)

/-- The per-line splitting loop of GetSubLines: fold over the rune positions,
then emit the final remaining piece without the marker. -/
def subLineSplit (line : List Nat) (maxLineLength : Int) (cm : List Nat) :
    List (List Nat) :=
  let res := (runePositions line).foldl (subLineStep line maxLineLength cm) ([], 0, 0)
  res.1 ++ [line.drop res.2.1]

/-- Go `GetSubLines(message, maxLineLength, clippingMessage)`. -/
def GetSubLines (message : List Nat) (maxLineLength : Int) (cm0 : List Nat) :
    List (List Nat) :=
  let cm := effMarker cm0
  (splitOnNl (trimSpace message)).flatMap fun line =>
    if line = [] then []
    else if maxLineLength = 0 ∨ (line.length : Int) ≤ maxLineLength then [line]
    else subLineSplit line maxLineLength cm

/-- Go `strings.Trim(msg, "\n")`: drop newline bytes from both ends. -/
def trimNl (s : List Nat) : List Nat :=
  ((s.dropWhile fun b => b = 10).reverse.dropWhile fun b => b = 10).reverse

/-- The regexp replacement `"\n+" -> "\n"`: collapse each maximal run of
newline bytes into a single one. -/
def collapseNl : List Nat → List Nat
  | [] => []
  | b :: rest =>
    match rest with
    | [] => [b]
    | c :: _ => if b = 10 ∧ c = 10 then collapseNl rest else b :: collapseNl rest

/-- Go `RemoveEmptyNewLines(msg)`. -/
def RemoveEmptyNewLines (msg : List Nat) : List Nat :=
  collapseNl (trimNl msg)

/-- Standard UTF-8 encoding of a Unicode scalar value. -/
def encodeRune (r : Nat) : List Nat :=
  if r < 0x80 then [r]
  else if r < 0x800 then [0xC0 + r / 0x40, 0x80 + r % 0x40]
  else if r < 0x10000 then
    [0xE0 + r / 0x1000, 0x80 + (r / 0x40) % 0x40, 0x80 + r % 0x40]
  else
    [0xF0 + r / 0x40000, 0x80 + (r / 0x1000) % 0x40, 0x80 + (r / 0x40) % 0x40,
     0x80 + r % 0x40]

/-- A Unicode scalar value (code point that is not a surrogate). -/
def ValidScalar (r : Nat) : Prop :=
  r < 0xD800 ∨ (0xE000 ≤ r ∧ r ≤ 0x10FFFF)

/-- A list of scalar values none of which is U+FFFD (the replacement
character, whose valid encoding the Go helpers cannot distinguish from a
decode error). -/
def StrictRunes (rs : List Nat) : Prop :=
  ∀ r ∈ rs, ValidScalar r ∧ r ≠ 0xFFFD

/-- The byte string encoding a list of scalar values. -/
def encList (rs : List Nat) : List Nat :=
  (rs.map encodeRune).flatten

/-- A byte string is strictly valid UTF-8 when it encodes some list of
scalar values none of which is U+FFFD. -/
def Utf8Strict (s : List Nat) : Prop :=
  ∃ rs, StrictRunes rs ∧ s = encList rs

/-- The largest character boundary of `encList rs` at or before offset `k`. -/
def lastBnd : List Nat → Nat → Nat
  | [], _ => 0
  | r :: rs, k =>
    let m := (encodeRune r).length
    if k < m then 0 else m + lastBnd rs (k - m)

/-- Whether a byte string ends with a complete UTF-8 character: empty, or its
last `k ∈ [1,4]` bytes decode as exactly one valid rune (a decode result of
size 1 is genuine only for an ASCII rune; `(0xFFFD, 1)` is the error
result). -/
def endsComplete (s : List Nat) : Bool :=
  s.isEmpty || (List.range 4).any fun j =>
    decide (j + 1 ≤ s.length ∧
      (let rn := goDecodeRune (s.drop (s.length - (j + 1)))
       rn.2 = j + 1 ∧ (2 ≤ rn.2 ∨ rn.1 < 0x80)))

/-- Spec-side byte positions of the runes of `rs`, starting at offset `p`. -/
def posList : List Nat → Nat → List Nat
  | [], _ => []
  | r :: rs, p => p :: posList rs (p + (encodeRune r).length)

/-- Spec-side split of a rune list on the newline rune, mirroring what
`strings.Split(·, "\n")` does on its encoding. -/
def runeSplitNl : List Nat → List (List Nat)
  | [] => [[]]
  | r :: rest =>
    if r = 10 then [] :: runeSplitNl rest
    else
      match runeSplitNl rest with
      | p :: ps => (r :: p) :: ps
      | [] => [[r]]

/-- A well-formed output fragment: within the byte budget `M`, and either a
strictly valid UTF-8 string or such a string followed by the marker. -/
def goodFrag (M : Int) (cm : List Nat) (f : List Nat) : Prop :=
  (f.length : Int) ≤ M ∧ ∃ ls, StrictRunes ls ∧ (f = encList ls ∨ f = encList ls ++ cm)

/-- Whether a byte string contains no two consecutive newline bytes. -/
def noDbl : List Nat → Bool
  | [] => true
  | b :: rest =>
    match rest with
    | [] => true
    | c :: _ => if b = 10 ∧ c = 10 then false else noDbl rest

/- ------------------------------------------------------------------
Lemmas about RemoveEmptyNewLines (claim C10).
------------------------------------------------------------------ -/

lemma collapseNl_ne_nil : ∀ s : List Nat, s ≠ [] → collapseNl s ≠ [] := by
  intro s
  induction s with
  | nil => simp
  | cons b rest ih =>
    intro _
    cases rest with
    | nil => simp [collapseNl]
    | cons c r' =>
      by_cases h : b = 10 ∧ c = 10
      · simpa [collapseNl, h] using ih (by simp)
      · simp [collapseNl, h]

lemma collapseNl_head? : ∀ s : List Nat, (collapseNl s).head? = s.head? := by
  intro s
  induction s with
  | nil => rfl
  | cons b rest ih =>
    cases rest with
    | nil => rfl
    | cons c r' =>
      by_cases h : b = 10 ∧ c = 10
      · rcases h with ⟨hb, hc⟩
        subst hb
        subst hc
        have he : collapseNl (10 :: 10 :: r') = collapseNl (10 :: r') := by
          rw [collapseNl]
          simp
        rw [he, ih]
        rfl
      · simp [collapseNl, h]

lemma collapseNl_getLast? : ∀ s : List Nat, (collapseNl s).getLast? = s.getLast? := by
  intro s
  induction s with
  | nil => rfl
  | cons b rest ih =>
    cases rest with
    | nil => rfl
    | cons c r' =>
      by_cases h : b = 10 ∧ c = 10
      · rw [collapseNl]
        simpa [h, List.getLast?_cons_cons] using ih
      · rw [collapseNl]
        simp only [h, if_false]
        rw [List.getLast?_cons_cons]
        have hne := collapseNl_ne_nil (c :: r') (by simp)
        cases hcl : collapseNl (c :: r') with
        | nil => exact absurd hcl hne
        | cons x xs =>
          rw [List.getLast?_cons_cons] at *
          rw [← hcl, ih]

lemma noDbl_collapseNl : ∀ s : List Nat, noDbl (collapseNl s) = true := by
  intro s
  induction s with
  | nil => rfl
  | cons b rest ih =>
    cases rest with
    | nil => rfl
    | cons c r' =>
      by_cases h : b = 10 ∧ c = 10
      · simpa [collapseNl, h] using ih
      · rw [collapseNl]
        simp only [h, if_false]
        have hhd : (collapseNl (c :: r')).head? = some c := by
          simpa using collapseNl_head? (c :: r')
        cases hcl : collapseNl (c :: r') with
        | nil => rfl
        | cons x xs =>
          have hx : x = c := by
            rw [hcl] at hhd; simpa using hhd
          rw [noDbl]
          have hbx : ¬(b = 10 ∧ x = 10) := by
            rw [hx]; exact h
          simp only [hbx, if_false]
          rw [← hcl]
          exact ih

lemma collapseNl_of_noDbl : ∀ s : List Nat, noDbl s = true → collapseNl s = s := by
  intro s
  induction s with
  | nil => intro _; rfl
  | cons b rest ih =>
    intro hnd
    cases rest with
    | nil => rfl
    | cons c r' =>
      by_cases h : b = 10 ∧ c = 10
      · rcases h with ⟨hb, hc⟩
        subst hb
        subst hc
        simp [noDbl] at hnd
      · have h1 : noDbl (b :: c :: r') = noDbl (c :: r') := by
          rw [noDbl, if_neg h]
        have h2 : collapseNl (b :: c :: r') = b :: collapseNl (c :: r') := by
          rw [collapseNl, if_neg h]
        rw [h1] at hnd
        rw [h2, ih hnd]

lemma dropWhile_eq_self_of_head? {p : Nat → Bool} {s : List Nat} :
    (∀ b, s.head? = some b → p b = false) → s.dropWhile p = s := by
  intro h
  cases s with
  | nil => rfl
  | cons b rest =>
    have := h b rfl
    simp [List.dropWhile, this]

lemma head?_dropWhile {p : Nat → Bool} : ∀ (s : List Nat) (b : Nat),
    (s.dropWhile p).head? = some b → p b = false := by
  intro s
  induction s with
  | nil => intro b h; simp [List.dropWhile] at h
  | cons x rest ih =>
    intro b h
    by_cases hx : p x
    · rw [List.dropWhile_cons_of_pos hx] at h
      exact ih b h
    · rw [List.dropWhile_cons_of_neg hx] at h
      simp at h
      subst h
      simpa using hx

lemma getLast?_dropWhile {p : Nat → Bool} (s : List Nat)
    (h : s.dropWhile p ≠ []) : (s.dropWhile p).getLast? = s.getLast? := by
  have hsome : ((s.dropWhile p).getLast?).isSome := by
    rw [List.getLast?_isSome]
    exact h
  obtain ⟨b, hb⟩ := Option.isSome_iff_exists.mp hsome
  obtain ⟨t, ht⟩ := List.dropWhile_suffix (l := s) (p := p)
  conv_rhs => rw [← ht]
  rw [List.getLast?_append, hb]
  rfl

lemma trimNl_head? (s : List Nat) (b : Nat) :
    (trimNl s).head? = some b → b ≠ 10 := by
  intro h hb
  subst hb
  unfold trimNl at h
  set u := s.dropWhile fun x => x = 10 with hu
  set v := u.reverse.dropWhile fun x => x = 10 with hv
  have hvne : v ≠ [] := by
    intro hveq
    rw [hveq] at h
    simp at h
  rw [List.head?_reverse] at h
  have := getLast?_dropWhile (p := fun x => x = 10) u.reverse (by rw [← hv]; exact hvne)
  rw [← hv] at this
  rw [this] at h
  rw [List.getLast?_reverse] at h
  have := head?_dropWhile (p := fun x => x = 10) s 10 (by rw [← hu]; exact h)
  simp at this

lemma trimNl_getLast? (s : List Nat) (b : Nat) :
    (trimNl s).getLast? = some b → b ≠ 10 := by
  intro h hb
  subst hb
  unfold trimNl at h
  rw [List.getLast?_reverse] at h
  have := head?_dropWhile (p := fun x => x = 10)
    ((s.dropWhile fun x => x = 10).reverse) 10 h
  simp at this

lemma trimNl_eq_self (s : List Nat)
    (h1 : ∀ b, s.head? = some b → b ≠ 10)
    (h2 : ∀ b, s.getLast? = some b → b ≠ 10) : trimNl s = s := by
  unfold trimNl
  have e1 : s.dropWhile (fun x => x = 10) = s := by
    apply dropWhile_eq_self_of_head?
    intro b hb
    simpa using h1 b hb
  rw [e1]
  have e2 : s.reverse.dropWhile (fun x => x = 10) = s.reverse := by
    apply dropWhile_eq_self_of_head?
    intro b hb
    rw [List.head?_reverse] at hb
    simpa using h2 b hb
  rw [e2, List.reverse_reverse]

/- ------------------------------------------------------------------
Basic lemmas about the clipping and splitting loops.
------------------------------------------------------------------ -/

lemma clipBackupAux_length_le : ∀ (fuel : Nat) (s : List Nat),
    (clipBackupAux fuel s).length ≤ s.length := by
  intro fuel
  induction fuel with
  | zero => intro s; simp [clipBackupAux]
  | succ n ih =>
    intro s
    rw [clipBackupAux]
    by_cases hs : s = []
    · simp [hs]
    · simp only [hs, if_false]
      by_cases he : lastRuneIsError s
      · simp only [he, if_true]
        calc (clipBackupAux n s.dropLast).length ≤ s.dropLast.length := ih _
          _ ≤ s.length := by simp [List.length_dropLast]
      · simp [he]

lemma clipBackup_length_le (s : List Nat) : (clipBackup s).length ≤ s.length :=
  clipBackupAux_length_le _ _

lemma splitChunkAux_take : ∀ (fuel w : Nat) (ch rem : List Nat) (len : Int),
    (∃ n, ch = rem.take n) → ∃ n, splitChunkAux rem len fuel w ch = rem.take n := by
  intro fuel
  induction fuel with
  | zero => intro w ch rem len h; exact h
  | succ f ih =>
    intro w ch rem len h
    rw [splitChunkAux]
    by_cases hg : w < 4 ∧ (w : Int) < len
    · simp only [hg, if_true]
      by_cases he : lastRuneIsError (rem.take (len - w).toNat)
      · simp only [he, if_true]
        exact ih _ _ _ _ ⟨(len - w).toNat, rfl⟩
      · simp only [he, if_false]
        exact ⟨(len - w).toNat, rfl⟩
    · simp only [hg, if_false]
      exact h

lemma splitChunk_take (rem : List Nat) (len : Int) :
    ∃ n, splitChunk rem len = rem.take n :=
  splitChunkAux_take 4 0 [] rem len ⟨0, by simp⟩

lemma take_append_drop_length (rem : List Nat) (n : Nat) :
    rem.take n ++ rem.drop (rem.take n).length = rem := by
  rw [List.length_take]
  have h1 : rem.take n = rem.take (Nat.min n rem.length) := by
    rw [List.take_eq_take]
    rw [Nat.min_assoc, Nat.min_self]
  rw [h1]
  exact List.take_append_drop _ _

lemma splitLoop_join : ∀ (fuel : Nat) (len : Int) (rem : List Nat),
    (splitLoop len fuel rem).1.flatten ++ (splitLoop len fuel rem).2 = rem := by
  intro fuel
  induction fuel with
  | zero => intro len rem; simp [splitLoop]
  | succ f ih =>
    intro len rem
    rw [splitLoop]
    by_cases hg : (rem.length : Int) > len
    · simp only [hg, if_true, List.flatten_cons, List.append_assoc]
      obtain ⟨n, hn⟩ := splitChunk_take rem len
      rw [ih]
      conv_rhs => rw [← take_append_drop_length rem n, ← hn]
    · simp [hg, splitLoop]

lemma splitLoop_parts_le : ∀ (fuel : Nat) (len : Int) (rem : List Nat),
    (splitLoop len fuel rem).1.length ≤ fuel := by
  intro fuel
  induction fuel with
  | zero => intro len rem; simp [splitLoop]
  | succ f ih =>
    intro len rem
    rw [splitLoop]
    by_cases hg : (rem.length : Int) > len
    · simp only [hg, if_true, List.length_cons]
      exact Nat.succ_le_succ (ih _ _)
    · simp [hg]

lemma flatten_append_eq_infix : ∀ (L : List (List Nat)) (rest text : List Nat),
    L.flatten ++ rest = text → ∀ p ∈ L, ∃ u v, text = u ++ p ++ v := by
  intro L
  induction L with
  | nil => intro rest text _ p hp; simp at hp
  | cons q L ih =>
    intro rest text ht p hp
    rw [List.flatten_cons, List.append_assoc] at ht
    rcases List.mem_cons.mp hp with hp | hp
    · subst hp
      exact ⟨[], L.flatten ++ rest, by rw [← ht]; simp⟩
    · obtain ⟨u, v, huv⟩ := ih rest (L.flatten ++ rest) rfl p hp
      exact ⟨q ++ u, v, by rw [← ht, huv]; simp⟩

lemma effMarker_ne (cm0 : List Nat) : effMarker cm0 ≠ [] := by
  unfold effMarker
  by_cases h : cm0 = [] <;> simp [h, defaultClip]

lemma splitChunkAux_length_le : ∀ (fuel w : Nat) (ch rem : List Nat) (len : Int),
    ch.length ≤ len.toNat → (splitChunkAux rem len fuel w ch).length ≤ len.toNat := by
  intro fuel
  induction fuel with
  | zero => intro w ch rem len h; exact h
  | succ f ih =>
    intro w ch rem len h
    rw [splitChunkAux]
    by_cases hg : w < 4 ∧ (w : Int) < len
    · simp only [hg, if_true]
      have hch : (rem.take (len - w).toNat).length ≤ len.toNat := by
        rw [List.length_take]
        have : (len - w).toNat ≤ len.toNat := by omega
        omega
      by_cases he : lastRuneIsError (rem.take (len - w).toNat)
      · simp only [he, if_true]
        exact ih _ _ _ _ hch
      · simp only [he, if_false]
        exact hch
    · simp only [hg, if_false]
      exact h

lemma splitChunk_length_le (rem : List Nat) (len : Int) :
    (splitChunk rem len).length ≤ len.toNat :=
  splitChunkAux_length_le 4 0 [] rem len (by simp)

lemma splitChunkAux_ne : ∀ (fuel w : Nat) (ch rem : List Nat) (len : Int),
    ch ≠ [] → rem ≠ [] → (w : Int) < len → splitChunkAux rem len fuel w ch ≠ [] := by
  intro fuel
  induction fuel with
  | zero => intro w ch rem len hch _ _; exact hch
  | succ f ih =>
    intro w ch rem len hch hrem hw
    rw [splitChunkAux]
    by_cases hg : w < 4 ∧ (w : Int) < len
    · simp only [hg, if_true]
      have hne : rem.take (len - w).toNat ≠ [] := by
        have h1 : 1 ≤ (len - w).toNat := by omega
        cases rem with
        | nil => exact absurd rfl hrem
        | cons a t =>
          cases hn : (len - w).toNat with
          | zero => omega
          | succ n => simp [List.take]
      by_cases he : lastRuneIsError (rem.take (len - w).toNat)
      · simp only [he, if_true]
        by_cases hw1 : ((w + 1 : Nat) : Int) < len
        · exact ih _ _ _ _ hne hrem hw1
        · -- fuel remains but the guard fails at the next step: result is the
          -- nonempty chunk assigned here
          cases f with
          | zero => exact hne
          | succ f' =>
            rw [splitChunkAux]
            have : ¬(w + 1 < 4 ∧ ((w + 1 : Nat) : Int) < len) := by
              intro hc
              exact hw1 hc.2
            simp only [this, if_false]
            exact hne
      · simp only [he, if_false]
        exact hne
    · simp only [hg, if_false]
      exact hch

lemma splitChunk_ne (rem : List Nat) (len : Int) (hlen : 1 ≤ len) (hrem : rem ≠ []) :
    splitChunk rem len ≠ [] := by
  unfold splitChunk
  rw [splitChunkAux]
  have hg : (0 : Nat) < 4 ∧ ((0 : Nat) : Int) < len := by
    constructor
    · omega
    · push_cast
      omega
  simp only [hg, if_true]
  have hne : rem.take ((len - (0 : Nat)).toNat) ≠ [] := by
    have h1 : 1 ≤ (len - (0 : Nat)).toNat := by omega
    cases rem with
    | nil => exact absurd rfl hrem
    | cons a t =>
      cases hn : (len - (0 : Nat)).toNat with
      | zero => omega
      | succ n => simp [List.take]
  by_cases he : lastRuneIsError (rem.take (len - (0 : Nat)).toNat)
  · simp only [he, if_true]
    by_cases hw1 : ((1 : Nat) : Int) < len
    · exact splitChunkAux_ne _ _ _ _ _ hne hrem hw1
    · rw [splitChunkAux]
      have : ¬((1 : Nat) < 4 ∧ ((1 : Nat) : Int) < len) := by
        intro hc
        exact hw1 hc.2
      simp only [this, if_false]
      exact hne
  · simp only [he, if_false]
    exact hne

lemma splitLoop_rem_ne : ∀ (fuel : Nat) (len : Int) (rem : List Nat),
    rem ≠ [] → (splitLoop len fuel rem).2 ≠ [] := by
  intro fuel
  induction fuel with
  | zero => intro len rem h; exact h
  | succ f ih =>
    intro len rem h
    rw [splitLoop]
    by_cases hg : (rem.length : Int) > len
    · simp only [hg, if_true]
      apply ih
      have hc := splitChunk_length_le rem len
      have hr : 1 ≤ rem.length := by
        cases rem with
        | nil => exact absurd rfl h
        | cons a t => simp
      have hlt : (splitChunk rem len).length < rem.length := by omega
      intro hdrop
      rw [List.drop_eq_nil_iff] at hdrop
      omega
    · simp only [hg, if_false]
      exact h

lemma splitLoop_parts_ne : ∀ (fuel : Nat) (len : Int) (rem : List Nat),
    1 ≤ len → rem ≠ [] → ∀ p ∈ (splitLoop len fuel rem).1, p ≠ [] := by
  intro fuel
  induction fuel with
  | zero => intro len rem _ _ p hp; simp [splitLoop] at hp
  | succ f ih =>
    intro len rem hlen h p hp
    rw [splitLoop] at hp
    by_cases hg : (rem.length : Int) > len
    · simp only [hg, if_true] at hp
      rcases List.mem_cons.mp hp with hp | hp
      · subst hp
        exact splitChunk_ne rem len hlen h
      · apply ih len _ hlen _ p hp
        have hc := splitChunk_length_le rem len
        have hr : 1 ≤ rem.length := by
          cases rem with
          | nil => exact absurd rfl h
          | cons a t => simp
        have hlt : (splitChunk rem len).length < rem.length := by omega
        intro hdrop
        rw [List.drop_eq_nil_iff] at hdrop
        omega
    · simp only [hg, if_false] at hp
      simp at hp

lemma ClipMessage_ne (text : List Nat) (len : Int) (cm y : List Nat)
    (htext : text ≠ []) (h : ClipMessage text len cm = some y) : y ≠ [] := by
  simp only [ClipMessage] at h
  by_cases hlen : (text.length : Int) > len
  · rw [if_pos hlen] at h
    by_cases hk : len - ((effMarker cm).length : Int) < 0
    · rw [if_pos hk] at h
      exact absurd h (by simp)
    · rw [if_neg hk] at h
      have hy := Option.some.inj h
      rw [← hy]
      intro hcon
      have := List.append_eq_nil.mp hcon
      exact effMarker_ne cm this.2
  · rw [if_neg hlen] at h
    have hy := Option.some.inj h
    rw [← hy]
    exact htext

lemma runePosAux_lt (line : List Nat) : ∀ (fuel p : Nat),
    ∀ q ∈ runePosAux line fuel p, q < line.length := by
  intro fuel
  induction fuel with
  | zero => intro p q hq; simp [runePosAux] at hq
  | succ f ih =>
    intro p q hq
    rw [runePosAux] at hq
    by_cases hp : p < line.length
    · simp only [hp, if_true] at hq
      rcases List.mem_cons.mp hq with hq | hq
      · subst hq; exact hp
      · exact ih _ q hq
    · simp only [hp, if_false] at hq
      simp at hq

lemma subLineSplit_fold_inv (line : List Nat) (ml : Int) (cm : List Nat) :
    ∀ (ps : List Nat) (acc : List (List Nat)) (ss pr : Nat),
    (∀ p ∈ ps, p < line.length) → ss < line.length → pr < line.length →
    (∀ f ∈ acc, f ≠ []) → cm ≠ [] →
    (∀ f ∈ (ps.foldl (subLineStep line ml cm) (acc, ss, pr)).1, f ≠ []) ∧
    (ps.foldl (subLineStep line ml cm) (acc, ss, pr)).2.1 < line.length := by
  intro ps
  induction ps with
  | nil => intro acc ss pr _ hss _ hacc _; exact ⟨hacc, hss⟩
  | cons p ps ih =>
    intro acc ss pr hps hss hpr hacc hcm
    simp only [List.foldl_cons, subLineStep]
    have hp : p < line.length := hps p (List.mem_cons_self _ _)
    have hps' : ∀ q ∈ ps, q < line.length := fun q hq => hps q (List.mem_cons_of_mem _ hq)
    by_cases hc : (p : Int) - ss > ml - cm.length
    · rw [if_pos hc]
      refine ih (acc ++ [goSub line ss pr ++ cm]) pr p hps' hpr hp ?_ hcm
      intro f hf
      rcases List.mem_append.mp hf with hf | hf
      · exact hacc f hf
      · have hfe : f = goSub line ss pr ++ cm := by simpa using hf
        rw [hfe]
        intro hcon
        exact hcm (List.append_eq_nil.mp hcon).2
    · rw [if_neg hc]
      exact ih acc ss p hps' hss hp hacc hcm

/- ------------------------------------------------------------------
UTF-8 encode/decode correspondence.
------------------------------------------------------------------ -/

lemma encodeRune_ascii (r : Nat) (h : r < 0x80) : encodeRune r = [r] := by
  simp [encodeRune, h]

lemma encodeRune_two (r : Nat) (h1 : ¬r < 0x80) (h2 : r < 0x800) :
    encodeRune r = [0xC0 + r / 0x40, 0x80 + r % 0x40] := by
  simp [encodeRune, h1, h2]

lemma encodeRune_three (r : Nat) (h2 : ¬r < 0x800) (h3 : r < 0x10000) :
    encodeRune r = [0xE0 + r / 0x1000, 0x80 + (r / 0x40) % 0x40, 0x80 + r % 0x40] := by
  have h1 : ¬r < 0x80 := by omega
  simp [encodeRune, h1, h2, h3]

lemma encodeRune_four (r : Nat) (h3 : ¬r < 0x10000) :
    encodeRune r = [0xF0 + r / 0x40000, 0x80 + (r / 0x1000) % 0x40,
      0x80 + (r / 0x40) % 0x40, 0x80 + r % 0x40] := by
  have h1 : ¬r < 0x80 := by omega
  have h2 : ¬r < 0x800 := by omega
  simp [encodeRune, h1, h2, h3]

lemma encodeRune_length_pos (r : Nat) : 1 ≤ (encodeRune r).length := by
  unfold encodeRune
  split_ifs <;> simp

lemma encodeRune_length_le (r : Nat) : (encodeRune r).length ≤ 4 := by
  unfold encodeRune
  split_ifs <;> simp

/-- Forward decoding inverts encoding: the Go decoder reads exactly the
encoded rune back, regardless of what follows. -/
lemma goDecodeRune_enc (r : Nat) (hr : ValidScalar r) (rest : List Nat) :
    goDecodeRune (encodeRune r ++ rest) = (r, (encodeRune r).length) := by
  unfold ValidScalar at hr
  by_cases h1 : r < 0x80
  · rw [encodeRune_ascii r h1]
    simp only [List.cons_append, List.nil_append, goDecodeRune, List.length_cons,
      List.length_nil]
    rw [if_pos h1]
  · by_cases h2 : r < 0x800
    · rw [encodeRune_two r h1 h2]
      simp only [List.cons_append, List.nil_append, goDecodeRune, goDec2, List.length_cons,
        List.length_nil]
      rw [if_neg (by omega), if_neg (by omega), if_pos (by omega), if_pos (by omega)]
      have e1 : (0xC0 + r / 0x40) % 0x20 = r / 0x40 := by omega
      have e2 : (0x80 + r % 0x40) % 0x40 = r % 0x40 := by omega
      simp only [Prod.mk.injEq, e1, e2]
      constructor
      · omega
      · trivial
    · by_cases h3 : r < 0x10000
      · rw [encodeRune_three r h2 h3]
        simp only [List.cons_append, List.nil_append, goDecodeRune, goDec3, List.length_cons,
          List.length_nil]
        rw [if_neg (by omega), if_neg (by omega), if_neg (by omega), if_pos (by omega)]
        have e1 : (0xE0 + r / 0x1000) % 0x10 = r / 0x1000 := by omega
        have e2 : (0x80 + (r / 0x40) % 0x40) % 0x40 = (r / 0x40) % 0x40 := by omega
        have e3 : (0x80 + r % 0x40) % 0x40 = r % 0x40 := by omega
        have ediv : r / 0x40 / 0x40 = r / 0x1000 := by
          rw [Nat.div_div_eq_div_mul]
        split_ifs <;> first
          | (exfalso; omega)
          | (simp only [Prod.mk.injEq, e1, e2, e3]; exact ⟨by omega, trivial⟩)
      · rw [encodeRune_four r h3]
        simp only [List.cons_append, List.nil_append, goDecodeRune, goDec4, List.length_cons,
          List.length_nil]
        rw [if_neg (by omega), if_neg (by omega), if_neg (by omega), if_neg (by omega)]
        have e1 : (0xF0 + r / 0x40000) % 0x8 = r / 0x40000 := by omega
        have e2 : (0x80 + (r / 0x1000) % 0x40) % 0x40 = (r / 0x1000) % 0x40 := by omega
        have e3 : (0x80 + (r / 0x40) % 0x40) % 0x40 = (r / 0x40) % 0x40 := by omega
        have e4 : (0x80 + r % 0x40) % 0x40 = r % 0x40 := by omega
        have ediv1 : r / 0x40 / 0x40 = r / 0x1000 := by
          rw [Nat.div_div_eq_div_mul]
        have ediv2 : r / 0x1000 / 0x40 = r / 0x40000 := by
          rw [Nat.div_div_eq_div_mul]
        split_ifs <;> first
          | (exfalso; omega)
          | (simp only [Prod.mk.injEq, e1, e2, e3, e4]; exact ⟨by omega, trivial⟩)

/-- The first byte of a multi-byte encoding is in [0xC2, 0xF4]. -/
lemma encodeRune_head_hi (r : Nat) (hr : ValidScalar r) (h1 : ¬r < 0x80) :
    ∃ b0 t, encodeRune r = b0 :: t ∧ 0xC2 ≤ b0 ∧ b0 ≤ 0xF4 := by
  unfold ValidScalar at hr
  by_cases h2 : r < 0x800
  · rw [encodeRune_two r h1 h2]
    exact ⟨_, _, rfl, by omega, by omega⟩
  · by_cases h3 : r < 0x10000
    · rw [encodeRune_three r h2 h3]
      exact ⟨_, _, rfl, by omega, by omega⟩
    · rw [encodeRune_four r h3]
      exact ⟨_, _, rfl, by omega, by omega⟩

/-- Every byte after the first one in an encoding is a continuation byte. -/
lemma encodeRune_tail_cont (r : Nat) : ∀ b ∈ (encodeRune r).tail, 0x80 ≤ b ∧ b ≤ 0xBF := by
  unfold encodeRune
  split_ifs <;> intro b hb <;> simp at hb <;> omega

lemma runeStart_cont {b : Nat} (h1 : 0x80 ≤ b) (h2 : b ≤ 0xBF) : runeStart b = false := by
  simp only [runeStart, decide_eq_false_iff_not]
  omega

lemma runeStart_hi {b : Nat} (h : 0xC0 ≤ b) : runeStart b = true := by
  simp only [runeStart, decide_eq_true_eq]
  omega

lemma getD_mem (l : List Nat) (n d : Nat) (h : n < l.length) : l.getD n d ∈ l := by
  induction l generalizing n with
  | nil => simp at h
  | cons a t ih =>
    cases n with
    | zero => simp [List.getD]
    | succ n =>
      simp only [List.getD_cons_succ]
      exact List.mem_cons_of_mem _ (ih n (by simpa using h))

/-- The backward scan finds the nearest non-continuation byte: if `target`
is in the window, is a rune start, and everything strictly after it up to `i`
is a continuation byte, the scan returns `target`. -/
lemma findStart_some (s : List Nat) (lim : Nat) : ∀ (i target : Nat),
    lim ≤ target → target ≤ i → runeStart (s.getD target 0) = true →
    (∀ j, target < j → j ≤ i → runeStart (s.getD j 0) = false) →
    findStart s lim i = some target := by
  intro i
  induction i with
  | zero =>
    intro target h1 h2 h3 _
    have ht : target = 0 := by omega
    subst ht
    rw [findStart, if_pos (by omega), if_pos h3]
  | succ i ih =>
    intro target h1 h2 h3 h4
    rw [findStart]
    by_cases he : target = i + 1
    · subst he
      rw [if_neg (by omega), if_pos h3]
    · have hni : runeStart (s.getD (i + 1) 0) = false := h4 (i + 1) (by omega) (by omega)
      have hcond : ¬(runeStart (s.getD (i + 1) 0) = true) := by
        rw [hni]
        exact Bool.false_ne_true
      rw [if_neg (by omega), if_neg hcond]
      exact ih target h1 (by omega) h3 (fun j hj1 hj2 => h4 j hj1 (by omega))

/-- If every byte in the window is a continuation byte the scan fails. -/
lemma findStart_none (s : List Nat) (lim : Nat) : ∀ (i : Nat),
    (∀ j, lim ≤ j → j ≤ i → runeStart (s.getD j 0) = false) →
    findStart s lim i = none := by
  intro i
  induction i with
  | zero =>
    intro h
    rw [findStart]
    by_cases hl : lim = 0
    · have hcond : ¬(runeStart (s.getD 0 0) = true) := by
        rw [h 0 (by omega) (by omega)]
        exact Bool.false_ne_true
      rw [if_pos hl, if_neg hcond]
    · rw [if_neg hl]
  | succ i ih =>
    intro h
    rw [findStart]
    by_cases h1 : i + 1 < lim
    · rw [if_pos h1]
    · have hcond : ¬(runeStart (s.getD (i + 1) 0) = true) := by
        rw [h (i + 1) (by omega) (by omega)]
        exact Bool.false_ne_true
      rw [if_neg h1, if_neg hcond]
      exact ih (fun j hj1 hj2 => h j hj1 (by omega))

/-- Backward decoding of a well-formed last rune: `DecodeLastRuneInString`
recovers exactly the last encoded rune, whatever precedes it. -/
lemma goDecodeLastRune_enc (pre : List Nat) (r : Nat) (hr : ValidScalar r) :
    goDecodeLastRune (pre ++ encodeRune r) = (r, (encodeRune r).length) := by
  by_cases h1 : r < 0x80
  · rw [encodeRune_ascii r h1]
    simp only [goDecodeLastRune, List.length_append, List.length_singleton]
    rw [if_neg (by omega)]
    have hgd : (pre ++ [r]).getD (pre.length + 1 - 1) 0 = r := by
      rw [Nat.add_sub_cancel, List.getD_append_right pre [r] 0 _ (le_refl _),
        Nat.sub_self]
      rfl
    rw [hgd, if_pos h1]
  · obtain ⟨b0, t, he, hb0lo, _⟩ := encodeRune_head_hi r hr h1
    have htail : ∀ b ∈ t, 0x80 ≤ b ∧ b ≤ 0xBF := by
      intro b hb
      exact encodeRune_tail_cont r b (by rw [he]; exact hb)
    have hm2 : 2 ≤ (encodeRune r).length := by
      rcases Nat.lt_or_ge r 0x800 with h2 | h2
      · rw [encodeRune_two r h1 h2]; simp
      · rcases Nat.lt_or_ge r 0x10000 with h3 | h3
        · rw [encodeRune_three r (by omega) h3]; simp
        · rw [encodeRune_four r (by omega)]; simp
    have hm4 : (encodeRune r).length ≤ 4 := encodeRune_length_le r
    have hmt : t.length = (encodeRune r).length - 1 := by
      have h := congrArg List.length he
      simp only [List.length_cons] at h
      omega
    have hlen : (pre ++ encodeRune r).length = pre.length + (encodeRune r).length := by
      simp [List.length_append]
    have hlast : ∃ b, (pre ++ encodeRune r).getD
        (pre.length + (encodeRune r).length - 1) 0 = b ∧ 0x80 ≤ b ∧ b ≤ 0xBF := by
      have hidx : pre.length ≤ pre.length + (encodeRune r).length - 1 := by omega
      rw [List.getD_append_right pre (encodeRune r) 0 _ hidx]
      have hsub : pre.length + (encodeRune r).length - 1 - pre.length =
          (encodeRune r).length - 1 := by omega
      rw [hsub]
      refine ⟨_, rfl, ?_⟩
      have hel : (encodeRune r).getD ((encodeRune r).length - 1) 0 =
          t.getD ((encodeRune r).length - 2) 0 := by
        have hn : (encodeRune r).length - 1 = ((encodeRune r).length - 2) + 1 := by omega
        rw [hn, he, List.getD_cons_succ]
      have hmem : (encodeRune r).getD ((encodeRune r).length - 1) 0 ∈ t := by
        rw [hel]
        exact getD_mem t ((encodeRune r).length - 2) 0 (by omega)
      exact htail _ hmem
    obtain ⟨blast, hbl, hblo, hbhi⟩ := hlast
    have hfs : findStart (pre ++ encodeRune r)
        (pre.length + (encodeRune r).length - 4)
        (pre.length + (encodeRune r).length - 2) = some pre.length := by
      apply findStart_some
      · omega
      · omega
      · rw [List.getD_append_right pre (encodeRune r) 0 _ (le_refl _), Nat.sub_self, he,
          List.getD_cons_zero]
        exact runeStart_hi (by omega)
      · intro j hj1 hj2
        rw [List.getD_append_right pre (encodeRune r) 0 _ (by omega), he]
        have hn : j - pre.length = (j - pre.length - 1) + 1 := by omega
        rw [hn, List.getD_cons_succ]
        have hmem : t.getD (j - pre.length - 1) 0 ∈ t := getD_mem t _ 0 (by omega)
        obtain ⟨hc1, hc2⟩ := htail _ hmem
        exact runeStart_cont hc1 hc2
    have hdec : goDecodeRune (encodeRune r) = (r, (encodeRune r).length) := by
      have h := goDecodeRune_enc r hr []
      rwa [List.append_nil] at h
    have hdrop : (pre ++ encodeRune r).drop pre.length = encodeRune r := List.drop_left pre _
    simp only [goDecodeLastRune, hlen]
    rw [if_neg (by omega), hbl, if_neg (by omega),
      if_pos (show 2 ≤ pre.length + (encodeRune r).length by omega)]
    simp only [hfs, hdrop, hdec]
    simp

/-- The first byte of any encoding is a rune start. -/
lemma encodeRune_head_start (r : Nat) (hr : ValidScalar r) :
    runeStart ((encodeRune r).getD 0 0) = true := by
  by_cases h1 : r < 0x80
  · rw [encodeRune_ascii r h1, List.getD_cons_zero]
    simp only [runeStart, decide_eq_true_eq]
    omega
  · obtain ⟨b0, t, he, hb0lo, _⟩ := encodeRune_head_hi r hr h1
    rw [he, List.getD_cons_zero]
    exact runeStart_hi (by omega)

/-- Decoding the last rune of a string that ends with a complete encoded rune
followed by one extra non-ASCII byte reports RuneError: the scan stops at the
start of that complete rune, which then fails to reach the end. -/
lemma goDecodeLastRune_enc_snoc (pre' : List Nat) (r' : Nat) (hr' : ValidScalar r')
    (x : Nat) (hx : ¬x < 0x80) :
    (goDecodeLastRune (pre' ++ (encodeRune r' ++ [x]))).1 = 0xFFFD := by
  have hm1 : 1 ≤ (encodeRune r').length := encodeRune_length_pos r'
  have hm4 : (encodeRune r').length ≤ 4 := encodeRune_length_le r'
  have hlen : (pre' ++ (encodeRune r' ++ [x])).length =
      pre'.length + (encodeRune r').length + 1 := by
    simp [List.length_append]
    omega
  have hlast : (pre' ++ (encodeRune r' ++ [x])).getD
      (pre'.length + (encodeRune r').length + 1 - 1) 0 = x := by
    rw [Nat.add_sub_cancel, List.getD_append_right pre' _ 0 _ (by omega)]
    have hs1 : pre'.length + (encodeRune r').length - pre'.length =
        (encodeRune r').length := by omega
    rw [hs1, List.getD_append_right _ [x] 0 _ (le_refl _), Nat.sub_self]
    rfl
  have htail : ∀ b ∈ (encodeRune r').tail, 0x80 ≤ b ∧ b ≤ 0xBF := encodeRune_tail_cont r'
  have hgetd : ∀ j, pre'.length < j → j ≤ pre'.length + (encodeRune r').length - 1 →
      runeStart ((pre' ++ (encodeRune r' ++ [x])).getD j 0) = false := by
    intro j hj1 hj2
    rw [List.getD_append_right pre' _ 0 _ (by omega)]
    have hjj : j - pre'.length < (encodeRune r').length := by omega
    rw [List.getD_append _ [x] 0 _ hjj]
    have hn : j - pre'.length = (j - pre'.length - 1) + 1 := by omega
    rw [hn]
    cases hc : encodeRune r' with
    | nil => rw [hc] at hm1; simp at hm1
    | cons b0 t =>
      rw [List.getD_cons_succ]
      have hmem : t.getD (j - pre'.length - 1) 0 ∈ t := by
        apply getD_mem
        have := congrArg List.length hc
        simp only [List.length_cons] at this
        omega
      have hcont : 0x80 ≤ t.getD (j - pre'.length - 1) 0 ∧
          t.getD (j - pre'.length - 1) 0 ≤ 0xBF := by
        apply htail
        rw [hc]
        exact hmem
      exact runeStart_cont hcont.1 hcont.2
  have hdec : goDecodeRune (encodeRune r' ++ [x]) = (r', (encodeRune r').length) :=
    goDecodeRune_enc r' hr' [x]
  have hdrop : (pre' ++ (encodeRune r' ++ [x])).drop pre'.length = encodeRune r' ++ [x] :=
    List.drop_left pre' _
  have hstart0 : runeStart ((pre' ++ (encodeRune r' ++ [x])).getD pre'.length 0) = true := by
    rw [List.getD_append_right pre' _ 0 _ (le_refl _), Nat.sub_self]
    have : (encodeRune r' ++ [x]).getD 0 0 = (encodeRune r').getD 0 0 := by
      rw [List.getD_append _ [x] 0 _ (by omega)]
    rw [this]
    exact encodeRune_head_start r' hr'
  -- the computed start index is the start of the last complete rune
  rcases Nat.lt_or_ge (encodeRune r').length 4 with hm3 | hm4'
  · -- a rune start is inside the scan window
    have hfs : findStart (pre' ++ (encodeRune r' ++ [x]))
        (pre'.length + (encodeRune r').length + 1 - 4)
        (pre'.length + (encodeRune r').length + 1 - 2) = some pre'.length := by
      apply findStart_some
      · omega
      · omega
      · exact hstart0
      · intro j hj1 hj2
        exact hgetd j hj1 (by omega)
    simp only [goDecodeLastRune, hlen]
    rw [if_neg (by omega), hlast, if_neg (by omega),
      if_pos (show 2 ≤ pre'.length + (encodeRune r').length + 1 by omega)]
    simp only [hfs, hdrop, hdec]
    rw [if_neg (by simp)]
  · -- a 4-byte rune: the window holds only continuation bytes and the scan
    -- falls back to lim - 1, which is again the start of the rune
    have hm4e : (encodeRune r').length = 4 := by omega
    have hfs : findStart (pre' ++ (encodeRune r' ++ [x]))
        (pre'.length + (encodeRune r').length + 1 - 4)
        (pre'.length + (encodeRune r').length + 1 - 2) = none := by
      apply findStart_none
      intro j hj1 hj2
      exact hgetd j (by omega) (by omega)
    have hlim : pre'.length + (encodeRune r').length + 1 - 4 - 1 = pre'.length := by
      omega
    simp only [goDecodeLastRune, hlen]
    rw [if_neg (by omega), hlast, if_neg (by omega),
      if_pos (show 2 ≤ pre'.length + (encodeRune r').length + 1 by omega)]
    simp only [hfs, hlim, hdrop, hdec]
    rw [if_neg (by simp)]

/-- A single multi-byte lead byte decodes backwards as RuneError. -/
lemma decodeLast_single_hi (b0 : Nat) (hlo : 0xC2 ≤ b0) (hhi : b0 ≤ 0xF4) :
    (goDecodeLastRune [b0]).1 = 0xFFFD := by
  have hdec : goDecodeRune [b0] = (0xFFFD, 1) := by
    simp only [goDecodeRune]
    rw [if_neg (by omega), if_neg (by omega)]
    split_ifs <;> rfl
  simp only [goDecodeLastRune, List.length_singleton]
  rw [if_neg (by omega), List.getD_cons_zero, if_neg (by omega),
    if_neg (show ¬((2 : Nat) ≤ 1) by omega)]
  simp only [List.drop_zero, hdec]
  simp

/-- A partial multi-byte encoding (a lead byte followed by one or two
continuation bytes, but fewer than the lead byte requires) at the end of any
buffer decodes backwards as RuneError, provided the partial-rune decode fails. -/
lemma decodeLast_partial_hi (pre : List Nat) (b0 : Nat) (tp : List Nat)
    (hb0lo : 0xC2 ≤ b0)
    (htp : ∀ b ∈ tp, 0x80 ≤ b ∧ b ≤ 0xBF)
    (hlen1 : 1 ≤ tp.length) (hlen2 : tp.length ≤ 2)
    (hshort : goDecodeRune (b0 :: tp) = (0xFFFD, 1)) :
    (goDecodeLastRune (pre ++ b0 :: tp)).1 = 0xFFFD := by
  have hlen : (pre ++ b0 :: tp).length = pre.length + tp.length + 1 := by
    simp [List.length_append]
    omega
  have hlast : ∃ b, (pre ++ b0 :: tp).getD (pre.length + tp.length + 1 - 1) 0 = b ∧
      0x80 ≤ b ∧ b ≤ 0xBF := by
    rw [Nat.add_sub_cancel, List.getD_append_right pre _ 0 _ (by omega)]
    have hs : pre.length + tp.length - pre.length = tp.length := by omega
    rw [hs]
    have hn : tp.length = (tp.length - 1) + 1 := by omega
    rw [hn, List.getD_cons_succ]
    exact ⟨_, rfl, htp _ (getD_mem tp _ 0 (by omega))⟩
  obtain ⟨blast, hbl, hblo, hbhi⟩ := hlast
  have hfs : findStart (pre ++ b0 :: tp) (pre.length + tp.length + 1 - 4)
      (pre.length + tp.length + 1 - 2) = some pre.length := by
    apply findStart_some
    · omega
    · omega
    · rw [List.getD_append_right pre _ 0 _ (le_refl _), Nat.sub_self, List.getD_cons_zero]
      exact runeStart_hi (by omega)
    · intro j hj1 hj2
      rw [List.getD_append_right pre _ 0 _ (by omega)]
      have hn : j - pre.length = (j - pre.length - 1) + 1 := by omega
      rw [hn, List.getD_cons_succ]
      obtain ⟨hc1, hc2⟩ := htp _ (getD_mem tp (j - pre.length - 1) 0 (by omega))
      exact runeStart_cont hc1 hc2
  have hdrop : (pre ++ b0 :: tp).drop pre.length = b0 :: tp := List.drop_left pre _
  simp only [goDecodeLastRune, hlen]
  rw [if_neg (by omega), hbl, if_neg (by omega),
    if_pos (show 2 ≤ pre.length + tp.length + 1 by omega)]
  simp only [hfs, hdrop, hshort]
  simp

/-- Truncating an encoded rune after `j < size` bytes makes the backward
decode report RuneError, whenever the preceding buffer is empty or itself
ends with a complete encoded rune.  This is the key fact behind the backup
loops of ClipMessage and ClipOrSplitMessage. -/
lemma decodeLast_take_err (pre : List Nat) (r j : Nat)
    (hpre : pre = [] ∨ ∃ pre' r', ValidScalar r' ∧ pre = pre' ++ encodeRune r')
    (hr : ValidScalar r) (hj1 : 1 ≤ j) (hjm : j < (encodeRune r).length) :
    (goDecodeLastRune (pre ++ (encodeRune r).take j)).1 = 0xFFFD := by
  have h1 : ¬r < 0x80 := by
    intro hc
    rw [encodeRune_ascii r hc] at hjm
    simp at hjm
    omega
  obtain ⟨b0, t, he, hb0lo, hb0hi⟩ := encodeRune_head_hi r hr h1
  by_cases hj : j = 1
  · subst hj
    have htake : (encodeRune r).take 1 = [b0] := by
      rw [he]
      rfl
    rw [htake]
    rcases hpre with hpre | ⟨pre', r', hr', hpre⟩
    · subst hpre
      rw [List.nil_append]
      exact decodeLast_single_hi b0 hb0lo hb0hi
    · subst hpre
      rw [List.append_assoc]
      exact goDecodeLastRune_enc_snoc pre' r' hr' b0 (by omega)
  · -- j ≥ 2, so the rune has 3 or 4 bytes and the cut keeps 1 or 2
    -- continuation bytes
    have hj2 : 2 ≤ j := by omega
    have htake : (encodeRune r).take j = b0 :: t.take (j - 1) := by
      rw [he]
      have hn : j = (j - 1) + 1 := by omega
      conv_lhs => rw [hn]
      rw [List.take_succ_cons]
    rw [htake]
    have hm4 : (encodeRune r).length ≤ 4 := encodeRune_length_le r
    have hmt : t.length + 1 = (encodeRune r).length := by
      have h := congrArg List.length he
      simp only [List.length_cons] at h
      omega
    have htp : ∀ b ∈ t.take (j - 1), 0x80 ≤ b ∧ b ≤ 0xBF := by
      intro b hb
      exact encodeRune_tail_cont r b (by rw [he]; exact List.mem_of_mem_take hb)
    have htplen : (t.take (j - 1)).length = j - 1 := by
      rw [List.length_take]
      omega
    apply decodeLast_partial_hi pre b0 (t.take (j - 1)) hb0lo htp
      (by omega) (by omega)
    -- the truncated decode itself fails: fewer continuation bytes than the
    -- lead byte requires
    rcases Nat.lt_or_ge r 0x800 with h2 | h2
    · exfalso
      rw [encodeRune_two r h1 h2] at hjm
      simp at hjm
      omega
    · rcases Nat.lt_or_ge r 0x10000 with h3 | h3
      · -- 3-byte rune, j = 2: one continuation byte left
        have hm3 : (encodeRune r).length = 3 := by
          rw [encodeRune_three r (by omega) h3]
          rfl
        have hjv : j = 2 := by omega
        have hb0v : b0 = 0xE0 + r / 0x1000 := by
          have h := encodeRune_three r (by omega) h3
          rw [he] at h
          exact (List.cons.injEq _ _ _ _).mp h |>.1
        have htv : t = [0x80 + (r / 0x40) % 0x40, 0x80 + r % 0x40] := by
          have h := encodeRune_three r (by omega) h3
          rw [he] at h
          exact (List.cons.injEq _ _ _ _).mp h |>.2
        rw [hjv, htv, hb0v]
        simp only [List.take_succ_cons, List.take_zero, goDecodeRune]
        rw [if_neg (by omega), if_neg (by omega), if_neg (by omega), if_pos (by omega)]
        rfl
      · -- 4-byte rune, j = 2 or 3
        have hb0v : b0 = 0xF0 + r / 0x40000 := by
          have h := encodeRune_four r (by omega)
          rw [he] at h
          exact (List.cons.injEq _ _ _ _).mp h |>.1
        have htv : t = [0x80 + (r / 0x1000) % 0x40, 0x80 + (r / 0x40) % 0x40,
            0x80 + r % 0x40] := by
          have h := encodeRune_four r (by omega)
          rw [he] at h
          exact (List.cons.injEq _ _ _ _).mp h |>.2
        have hm4e : (encodeRune r).length = 4 := by
          rw [encodeRune_four r (by omega)]
          rfl
        have hjv : j = 2 ∨ j = 3 := by omega
        rcases hjv with hjv | hjv
        · rw [hjv, htv, hb0v]
          simp only [List.take_succ_cons, List.take_zero, goDecodeRune]
          rw [if_neg (by omega), if_neg (by omega), if_neg (by omega), if_neg (by omega)]
          rfl
        · rw [hjv, htv, hb0v]
          simp only [List.take_succ_cons, List.take_zero, goDecodeRune]
          rw [if_neg (by omega), if_neg (by omega), if_neg (by omega), if_neg (by omega)]
          rfl

/-- A buffer ending in a complete encoded rune other than U+FFFD does not
test as RuneError. -/
lemma lastRuneIsError_enc_false (pre : List Nat) (r : Nat) (hr : ValidScalar r)
    (hne : r ≠ 0xFFFD) : lastRuneIsError (pre ++ encodeRune r) = false := by
  simp [lastRuneIsError, goDecodeLastRune_enc pre r hr, hne]

/- ------------------------------------------------------------------
Boundary bookkeeping for encoded rune lists.
------------------------------------------------------------------ -/

lemma encList_nil : encList [] = [] := rfl

lemma encList_cons (r : Nat) (rs : List Nat) :
    encList (r :: rs) = encodeRune r ++ encList rs := by
  simp [encList]

lemma encList_append (a b : List Nat) : encList (a ++ b) = encList a ++ encList b := by
  simp [encList]

lemma lastBnd_zero (rs : List Nat) : lastBnd rs 0 = 0 := by
  cases rs with
  | nil => rfl
  | cons r rs =>
    rw [lastBnd]
    have := encodeRune_length_pos r
    rw [if_pos (by omega)]

lemma lastBnd_le : ∀ (rs : List Nat) (k : Nat), lastBnd rs k ≤ k := by
  intro rs
  induction rs with
  | nil => intro k; simp [lastBnd]
  | cons r rs ih =>
    intro k
    rw [lastBnd]
    by_cases h : k < (encodeRune r).length
    · rw [if_pos h]
      omega
    · rw [if_neg h]
      have := ih (k - (encodeRune r).length)
      omega

lemma lastBnd_boundary_decomp : ∀ (rs : List Nat) (k : Nat),
    lastBnd rs k = k → k ≤ (encList rs).length →
    ∃ a b, rs = a ++ b ∧ (encList a).length = k := by
  intro rs
  induction rs with
  | nil =>
    intro k hb hk
    rw [encList_nil] at hk
    simp at hk
    exact ⟨[], [], rfl, by simp [encList_nil, hk]⟩
  | cons r rs ih =>
    intro k hb hk
    rw [lastBnd] at hb
    by_cases h : k < (encodeRune r).length
    · rw [if_pos h] at hb
      exact ⟨[], r :: rs, rfl, by simp [encList_nil, ← hb]⟩
    · rw [if_neg h] at hb
      have hk' : k - (encodeRune r).length ≤ (encList rs).length := by
        rw [encList_cons, List.length_append] at hk
        omega
      have hb' : lastBnd rs (k - (encodeRune r).length) = k - (encodeRune r).length := by
        omega
      obtain ⟨a, b, hab, hlen⟩ := ih _ hb' hk'
      refine ⟨r :: a, b, by rw [hab]; rfl, ?_⟩
      rw [encList_cons, List.length_append, hlen]
      omega

lemma lastBnd_partial_decomp : ∀ (rs : List Nat) (k : Nat),
    k ≤ (encList rs).length → lastBnd rs k < k →
    ∃ a r c, rs = a ++ r :: c ∧ (encList a).length = lastBnd rs k ∧
      k - lastBnd rs k < (encodeRune r).length := by
  intro rs
  induction rs with
  | nil =>
    intro k hk hb
    rw [encList_nil] at hk
    simp at hk
    omega
  | cons r rs ih =>
    intro k hk hb
    rw [lastBnd] at hb ⊢
    by_cases h : k < (encodeRune r).length
    · rw [if_pos h] at hb ⊢
      exact ⟨[], r, rs, rfl, by simp [encList_nil], by omega⟩
    · rw [if_neg h] at hb ⊢
      have hk' : k - (encodeRune r).length ≤ (encList rs).length := by
        rw [encList_cons, List.length_append] at hk
        omega
      have hb' : lastBnd rs (k - (encodeRune r).length) < k - (encodeRune r).length := by
        omega
      obtain ⟨a, rr, c, hab, hlen, hpart⟩ := ih _ hk' hb'
      refine ⟨r :: a, rr, c, by rw [hab]; rfl, ?_, ?_⟩
      · rw [encList_cons, List.length_append, hlen]
      · omega

lemma lastBnd_pred : ∀ (rs : List Nat) (k : Nat), 1 ≤ k → lastBnd rs k < k →
    lastBnd rs (k - 1) = lastBnd rs k := by
  intro rs
  induction rs with
  | nil => intro k _ _; simp [lastBnd]
  | cons r rs ih =>
    intro k hk1 hb
    rw [lastBnd] at hb ⊢
    conv_rhs => rw [lastBnd]
    by_cases h : k < (encodeRune r).length
    · rw [if_pos h] at hb ⊢
      rw [if_pos (by omega)]
    · rw [if_neg h] at hb ⊢
      have hne : ¬k = (encodeRune r).length := by
        intro he
        rw [he] at hb
        simp [lastBnd_zero] at hb
      rw [if_neg (by omega)]
      have hs : k - 1 - (encodeRune r).length = k - (encodeRune r).length - 1 := by omega
      rw [hs, ih (k - (encodeRune r).length) (by omega) (by omega)]

lemma lastBnd_ge_boundary : ∀ (rs : List Nat) (k j : Nat), j ≤ k →
    (∃ a b, rs = a ++ b ∧ (encList a).length = j) → j ≤ lastBnd rs k := by
  intro rs
  induction rs with
  | nil =>
    intro k j hj ⟨a, b, hab, hlen⟩
    have ha : a = [] := by
      cases a with
      | nil => rfl
      | cons x xs => simp at hab
    subst ha
    rw [encList_nil] at hlen
    simp at hlen
    omega
  | cons r rs ih =>
    intro k j hj ⟨a, b, hab, hlen⟩
    cases a with
    | nil =>
      rw [encList_nil] at hlen
      simp at hlen
      omega
    | cons x a' =>
      have hx : x = r ∧ a' ++ b = rs := by
        have h1 := (List.cons.injEq _ _ _ _).mp hab.symm
        exact ⟨h1.1, h1.2⟩
      obtain ⟨hx1, hx2⟩ := hx
      subst hx1
      rw [encList_cons, List.length_append] at hlen
      rw [lastBnd]
      have hml : 1 ≤ (encodeRune x).length := encodeRune_length_pos x
      rw [if_neg (by omega)]
      have := ih (k - (encodeRune x).length) ((encList a').length) (by omega)
        ⟨a', b, hx2.symm, rfl⟩
      omega

lemma take_encList_boundary (a b : List Nat) :
    (encList (a ++ b)).take (encList a).length = encList a := by
  rw [encList_append]
  exact List.take_left _ _

lemma take_encList_partial (a : List Nat) (r : Nat) (c : List Nat) (k : Nat)
    (h1 : (encList a).length ≤ k) (h2 : k ≤ (encList a).length + (encodeRune r).length) :
    (encList (a ++ r :: c)).take k =
      encList a ++ (encodeRune r).take (k - (encList a).length) := by
  rw [encList_append, encList_cons, List.take_append_eq_append_take,
    List.take_of_length_le h1]
  congr 1
  rw [List.take_append_eq_append_take]
  have h3 : k - (encList a).length - (encodeRune r).length = 0 := by omega
  rw [h3]
  simp

/- ------------------------------------------------------------------
Characterization of the backward boundary loops on valid input.
------------------------------------------------------------------ -/

lemma clipBackup_no_err (s : List Nat) (h : lastRuneIsError s = false) :
    clipBackup s = s := by
  unfold clipBackup
  cases hl : s.length with
  | zero => rfl
  | succ n =>
    rw [clipBackupAux]
    by_cases hs : s = []
    · rw [if_pos hs]
    · rw [if_neg hs, h]
      simp

lemma clipBackup_err_step (s : List Nat) (h : lastRuneIsError s = true) (hs : s ≠ []) :
    clipBackup s = clipBackup s.dropLast := by
  unfold clipBackup
  cases hl : s.length with
  | zero =>
    exfalso
    exact hs (List.length_eq_zero.mp hl)
  | succ n =>
    rw [clipBackupAux, if_neg hs, h]
    simp only [if_true]
    have hdl : s.dropLast.length = n := by
      rw [List.length_dropLast, hl]
      omega
    rw [hdl]

lemma dropLast_take (l : List Nat) (k : Nat) (hk : k ≤ l.length) :
    (l.take k).dropLast = l.take (k - 1) := by
  rw [List.dropLast_eq_take, List.length_take, List.take_take]
  congr 1
  omega

lemma strictRunes_append_left {a b : List Nat} (h : StrictRunes (a ++ b)) :
    StrictRunes a := fun r hr => h r (List.mem_append_left _ hr)

lemma strictRunes_append_right {a b : List Nat} (h : StrictRunes (a ++ b)) :
    StrictRunes b := fun r hr => h r (List.mem_append_right _ hr)

/-- The pre-condition of `decodeLast_take_err`: an encoded strict rune list
is empty or ends with a complete encoded rune. -/
lemma encList_shape (a : List Nat) (ha : StrictRunes a) :
    encList a = [] ∨
      ∃ pre' r', ValidScalar r' ∧ encList a = pre' ++ encodeRune r' := by
  rcases List.eq_nil_or_concat a with rfl | ⟨a', r, rfl⟩
  · left
    rfl
  · right
    refine ⟨encList a', r, (ha r (by simp)).1, ?_⟩
    rw [List.concat_eq_append, encList_append, encList_cons, encList_nil, List.append_nil]

/-- On strictly valid input, the ClipMessage backup loop cuts exactly at the
largest character boundary at or before the cut position. -/
lemma clipBackup_take (rs : List Nat) (hrs : StrictRunes rs) : ∀ (k : Nat),
    k ≤ (encList rs).length →
    clipBackup ((encList rs).take k) = (encList rs).take (lastBnd rs k) := by
  intro k
  induction k using Nat.strong_induction_on with
  | _ k ih =>
    intro hk
    by_cases hb : lastBnd rs k = k
    · rw [hb]
      by_cases hk0 : k = 0
      · subst hk0
        rfl
      · obtain ⟨a, b, hab, hlen⟩ := lastBnd_boundary_decomp rs k hb hk
        rcases List.eq_nil_or_concat a with ha | ⟨a', rl, ha⟩
        · subst ha
          rw [encList_nil] at hlen
          simp at hlen
          omega
        · have htake : (encList rs).take k = encList a := by
            rw [hab, ← hlen]
            exact take_encList_boundary a b
          rw [htake]
          apply clipBackup_no_err
          have hsh : encList a = encList a' ++ encodeRune rl := by
            rw [ha, List.concat_eq_append, encList_append, encList_cons, encList_nil,
              List.append_nil]
          rw [hsh]
          have hmem : rl ∈ rs := by
            rw [hab, ha]
            simp
          exact lastRuneIsError_enc_false _ rl (hrs rl hmem).1 (hrs rl hmem).2
    · have hblt : lastBnd rs k < k := Nat.lt_of_le_of_ne (lastBnd_le rs k) hb
      have hk1 : 1 ≤ k := by omega
      obtain ⟨a, rr, c, hab, hlen, hpart⟩ := lastBnd_partial_decomp rs k hk hblt
      have htake : (encList rs).take k =
          encList a ++ (encodeRune rr).take (k - (encList a).length) := by
        rw [hab]
        exact take_encList_partial a rr c k (by omega) (by omega)
      have herr : lastRuneIsError ((encList rs).take k) = true := by
        rw [htake]
        unfold lastRuneIsError
        rw [decodeLast_take_err (encList a) rr (k - (encList a).length) ?hpre
          (hrs rr (by rw [hab]; simp)).1 (by omega) (by omega)]
        · rfl
        case hpre =>
          exact encList_shape a (by
            rw [hab] at hrs
            exact strictRunes_append_left hrs)
      have hne : (encList rs).take k ≠ [] := by
        intro hcon
        have := congrArg List.length hcon
        rw [List.length_take] at this
        simp only [List.length_nil] at this
        omega
      rw [clipBackup_err_step _ herr hne, dropLast_take _ _ hk,
        ih (k - 1) (by omega) (by omega), lastBnd_pred rs k hk1 hblt]

/-- `lastBnd rs k` is always a character boundary of the encoded string. -/
lemma lastBnd_is_boundary : ∀ (rs : List Nat) (k : Nat),
    ∃ a b, rs = a ++ b ∧ (encList a).length = lastBnd rs k := by
  intro rs
  induction rs with
  | nil =>
    intro k
    exact ⟨[], [], rfl, rfl⟩
  | cons r rs ih =>
    intro k
    by_cases hk : k < (encodeRune r).length
    · refine ⟨[], r :: rs, rfl, ?_⟩
      rw [encList_nil, lastBnd]
      simp [hk]
    · obtain ⟨a, b, hab, hlen⟩ := ih (k - (encodeRune r).length)
      refine ⟨r :: a, b, by rw [hab]; rfl, ?_⟩
      rw [encList_cons, List.length_append, hlen, lastBnd]
      simp [hk]

/-- The distance from the cut position down to the last boundary is at most 3. -/
lemma lastBnd_step3 : ∀ (rs : List Nat) (k : Nat), k ≤ (encList rs).length →
    k - lastBnd rs k ≤ 3 := by
  intro rs
  induction rs with
  | nil =>
    intro k hk
    rw [encList_nil] at hk
    simp at hk
    omega
  | cons r rs ih =>
    intro k hk
    rw [encList_cons, List.length_append] at hk
    have hm4 : (encodeRune r).length ≤ 4 := encodeRune_length_le r
    rw [lastBnd]
    by_cases hklt : k < (encodeRune r).length
    · simp only [hklt, if_true]
      omega
    · simp only [hklt, if_false]
      have := ih (k - (encodeRune r).length) (by omega)
      omega

/-- `lastBnd` is constant on the interval between a cut position and its
boundary. -/
lemma lastBnd_between (rs : List Nat) : ∀ (k j : Nat), j ≤ k →
    lastBnd rs k ≤ j → lastBnd rs j = lastBnd rs k := by
  intro k
  induction k using Nat.strong_induction_on with
  | _ k ih =>
    intro j hjk hbj
    rcases Nat.eq_or_lt_of_le hjk with rfl | hlt
    · rfl
    · have hb : lastBnd rs k < k := lt_of_le_of_lt hbj hlt
      have h1 : 1 ≤ k := by omega
      rw [← lastBnd_pred rs k h1 hb]
      exact ih (k - 1) (by omega) j (by omega)
        (by rw [lastBnd_pred rs k h1 hb]; exact hbj)

/-- A strictly below-boundary cut of a strict encoded string ends in a rune
error. -/
lemma lastBnd_take_err (rs : List Nat) (hrs : StrictRunes rs) (j : Nat)
    (hj : j ≤ (encList rs).length) (hlt : lastBnd rs j < j) :
    lastRuneIsError ((encList rs).take j) = true := by
  obtain ⟨a, rr, c, hab, hlen, hpart⟩ := lastBnd_partial_decomp rs j hj hlt
  have htake : (encList rs).take j =
      encList a ++ (encodeRune rr).take (j - (encList a).length) := by
    rw [hab]
    exact take_encList_partial a rr c j (by omega) (by omega)
  rw [htake]
  unfold lastRuneIsError
  rw [decodeLast_take_err (encList a) rr (j - (encList a).length) ?hpre
    (hrs rr (by rw [hab]; simp)).1 (by omega) (by omega)]
  · rfl
  case hpre =>
    exact encList_shape a (by
      rw [hab] at hrs
      exact strictRunes_append_left hrs)

/-- A non-trivial boundary cut of a strict encoded string does not end in a
rune error. -/
lemma lastBnd_take_no_err (rs : List Nat) (hrs : StrictRunes rs) (j : Nat)
    (h1 : 1 ≤ j) (hj : j ≤ (encList rs).length) (heq : lastBnd rs j = j) :
    lastRuneIsError ((encList rs).take j) = false := by
  obtain ⟨a, b, hab, hlen⟩ := lastBnd_boundary_decomp rs j heq hj
  rcases List.eq_nil_or_concat a with ha | ⟨a', rl, ha⟩
  · subst ha
    rw [encList_nil] at hlen
    simp at hlen
    omega
  · have htake : (encList rs).take j = encList a := by
      rw [hab, ← hlen]
      exact take_encList_boundary a b
    rw [htake]
    have hsh : encList a = encList a' ++ encodeRune rl := by
      rw [ha, List.concat_eq_append, encList_append, encList_cons, encList_nil,
        List.append_nil]
    rw [hsh]
    have hmem : rl ∈ rs := by
      rw [hab, ha]
      simp
    exact lastRuneIsError_enc_false _ rl (hrs rl hmem).1 (hrs rl hmem).2

/-- The encoding of a rune list always ends with a complete character. -/
lemma endsComplete_encList (rs : List Nat) (hrs : StrictRunes rs) :
    endsComplete (encList rs) = true := by
  rcases List.eq_nil_or_concat rs with hn | ⟨rs', r, hc⟩
  · subst hn
    rfl
  · subst hc
    have hv : ValidScalar r := (hrs r (by simp)).1
    have hsh : encList (rs'.concat r) = encList rs' ++ encodeRune r := by
      rw [List.concat_eq_append, encList_append, encList_cons, encList_nil,
        List.append_nil]
    have hm1 : 1 ≤ (encodeRune r).length := encodeRune_length_pos r
    have hm4 : (encodeRune r).length ≤ 4 := encodeRune_length_le r
    rw [endsComplete, hsh, Bool.or_eq_true, List.any_eq_true]
    right
    refine ⟨(encodeRune r).length - 1, ?_, ?_⟩
    · rw [List.mem_range]
      omega
    · have hj1 : (encodeRune r).length - 1 + 1 = (encodeRune r).length := by omega
      have hlen : (encList rs' ++ encodeRune r).length =
          (encList rs').length + (encodeRune r).length := List.length_append _ _
      have hdrop : (encList rs' ++ encodeRune r).drop
          ((encList rs' ++ encodeRune r).length - ((encodeRune r).length - 1 + 1)) =
          encodeRune r := by
        rw [hj1, hlen, Nat.add_sub_cancel]
        exact List.drop_left _ _
      rw [decide_eq_true_iff]
      refine ⟨by omega, ?_⟩
      rw [hdrop]
      have hdec : goDecodeRune (encodeRune r) = (r, (encodeRune r).length) := by
        have := goDecodeRune_enc r hv []
        rwa [List.append_nil] at this
      rw [hdec]
      refine ⟨by omega, ?_⟩
      by_cases hr80 : r < 0x80
      · right
        exact hr80
      · left
        unfold encodeRune
        split_ifs with h1 h2 <;> simp

/-- Invariant of the `wasted` loop of ClipOrSplitMessage while the boundary is
positive: it keeps shrinking the chunk until it hits the boundary. -/
lemma splitChunkAux_good (rs : List Nat) (hrs : StrictRunes rs) (k : Nat)
    (hk : k ≤ (encList rs).length) (hb1 : 1 ≤ lastBnd rs k) :
    ∀ (fuel : Nat), ∀ (w : Nat) (ch : List Nat), w + fuel = 4 →
    w ≤ k - lastBnd rs k →
    splitChunkAux (encList rs) (k : Int) fuel w ch =
      (encList rs).take (lastBnd rs k) := by
  intro fuel
  induction fuel with
  | zero =>
    intro w ch hwf hwd
    have hd3 : k - lastBnd rs k ≤ 3 := lastBnd_step3 rs k hk
    omega
  | succ f ih =>
    intro w ch hwf hwd
    have hd3 : k - lastBnd rs k ≤ 3 := lastBnd_step3 rs k hk
    have hbk : lastBnd rs k ≤ k := lastBnd_le rs k
    rw [splitChunkAux]
    have hg : w < 4 ∧ (w : Int) < (k : Int) := ⟨by omega, by
      have : w < k := by omega
      exact_mod_cast this⟩
    rw [if_pos hg]
    have htn : ((k : Int) - (w : Nat)).toNat = k - w := by omega
    rw [htn]
    have hjb : lastBnd rs (k - w) = lastBnd rs k :=
      lastBnd_between rs k (k - w) (by omega) (by omega)
    by_cases hwd' : w < k - lastBnd rs k
    · have herr : lastRuneIsError ((encList rs).take (k - w)) = true := by
        apply lastBnd_take_err rs hrs (k - w) (by omega)
        rw [hjb]
        omega
      simp only [herr, if_true]
      exact ih (w + 1) _ (by omega) (by omega)
    · have hweq : w = k - lastBnd rs k := by omega
      have hkw : k - w = lastBnd rs k := by omega
      have hok : lastRuneIsError ((encList rs).take (k - w)) = false := by
        apply lastBnd_take_no_err rs hrs (k - w) (by omega) (by omega)
        rw [hjb, hkw]
      simp only [hok, Bool.false_eq_true, if_false]
      rw [hkw]

/-- On strict input whose last boundary is positive, the chunk loop of
ClipOrSplitMessage cuts exactly at the last boundary. -/
lemma splitChunk_cut (rs : List Nat) (hrs : StrictRunes rs) (k : Nat)
    (hk1 : 1 ≤ k) (hk : k ≤ (encList rs).length) (hb1 : 1 ≤ lastBnd rs k) :
    splitChunk (encList rs) (k : Int) = (encList rs).take (lastBnd rs k) :=
  splitChunkAux_good rs hrs k hk hb1 4 0 [] rfl (by omega)

/-- Invariant of the `wasted` loop in the corner case `lastBnd rs k = 0`
(the first character alone is wider than the cut): every candidate chunk is
in error, `wasted` climbs to `k ≤ 3`, and the loop exits with the chunk of
the final iteration, `take 1`. -/
lemma splitChunkAux_corner (rs : List Nat) (hrs : StrictRunes rs) (k : Nat)
    (hk1 : 1 ≤ k) (hk : k ≤ (encList rs).length) (hb0 : lastBnd rs k = 0) :
    ∀ (fuel : Nat), ∀ (w : Nat) (ch : List Nat), w + fuel = 4 → w ≤ k →
    (1 ≤ w → ch = (encList rs).take (k - w + 1)) →
    splitChunkAux (encList rs) (k : Int) fuel w ch = (encList rs).take 1 := by
  have hk3 : k ≤ 3 := by
    have := lastBnd_step3 rs k hk
    omega
  intro fuel
  induction fuel with
  | zero =>
    intro w ch hwf hwk _
    omega
  | succ f ih =>
    intro w ch hwf hwk hch
    rw [splitChunkAux]
    by_cases hwlt : w < k
    · have hg : w < 4 ∧ (w : Int) < (k : Int) := ⟨by omega, by exact_mod_cast hwlt⟩
      rw [if_pos hg]
      have htn : ((k : Int) - (w : Nat)).toNat = k - w := by omega
      rw [htn]
      have hjb : lastBnd rs (k - w) = 0 := by
        rw [lastBnd_between rs k (k - w) (by omega) (by omega), hb0]
      have herr : lastRuneIsError ((encList rs).take (k - w)) = true := by
        apply lastBnd_take_err rs hrs (k - w) (by omega)
        rw [hjb]
        omega
      simp only [herr, if_true]
      apply ih (w + 1) _ (by omega) (by omega)
      intro _
      congr 1
      omega
    · have hweq : w = k := by omega
      have hg : ¬(w < 4 ∧ (w : Int) < (k : Int)) := by
        intro ⟨_, hc⟩
        rw [hweq] at hc
        exact absurd hc (by omega)
      rw [if_neg hg]
      rw [hch (by omega)]
      congr 1
      omega

/-- In the corner case the chunk loop returns the (partial) first byte. -/
lemma splitChunk_corner (rs : List Nat) (hrs : StrictRunes rs) (k : Nat)
    (hk1 : 1 ≤ k) (hk : k ≤ (encList rs).length) (hb0 : lastBnd rs k = 0) :
    splitChunk (encList rs) (k : Int) = (encList rs).take 1 :=
  splitChunkAux_corner rs hrs k hk1 hk hb0 4 0 [] rfl (by omega) (by omega)

/- ------------------------------------------------------------------
Validity preservation through trimming and line splitting (claim C1).
------------------------------------------------------------------ -/

lemma drop_encList_boundary (a b : List Nat) :
    (encList (a ++ b)).drop (encList a).length = encList b := by
  rw [encList_append]
  exact List.drop_left _ _

lemma encList_cons_ne_nil (r : Nat) (rest : List Nat) : encList (r :: rest) ≠ [] := by
  rw [encList_cons]
  intro h
  have := congrArg List.length h
  rw [List.length_append, List.length_nil] at this
  have := encodeRune_length_pos r
  omega

lemma strictRunes_cons {r : Nat} {rest : List Nat} (h : StrictRunes (r :: rest)) :
    (ValidScalar r ∧ r ≠ 0xFFFD) ∧ StrictRunes rest :=
  ⟨h r (by simp), fun x hx => h x (by simp [hx])⟩

/-- Trimming white space from the left of a strict encoding yields a strict
encoding that is no longer. -/
lemma trimLeftAux_enc : ∀ (fuel : Nat) (qs : List Nat), StrictRunes qs →
    (encList qs).length ≤ fuel →
    ∃ qs', StrictRunes qs' ∧ trimLeftAux fuel (encList qs) = encList qs' ∧
      (encList qs').length ≤ (encList qs).length := by
  intro fuel
  induction fuel with
  | zero =>
    intro qs hqs _
    exact ⟨qs, hqs, rfl, le_rfl⟩
  | succ f ih =>
    intro qs hqs hlen
    cases qs with
    | nil =>
      exact ⟨[], hqs, by rw [encList_nil, trimLeftAux, if_pos rfl], le_rfl⟩
    | cons r rest =>
      obtain ⟨⟨hv, _⟩, hrest⟩ := strictRunes_cons hqs
      have hdec : goDecodeRune (encList (r :: rest)) = (r, (encodeRune r).length) := by
        rw [encList_cons]
        exact goDecodeRune_enc r hv (encList rest)
      rw [trimLeftAux, if_neg (encList_cons_ne_nil r rest)]
      simp only [hdec]
      by_cases hsp : isSpaceRune r = true
      · rw [if_pos hsp]
        have hdrop : (encList (r :: rest)).drop (encodeRune r).length = encList rest := by
          have := drop_encList_boundary [r] rest
          simpa [encList_cons, encList_nil] using this
        rw [hdrop]
        have hlr : (encList rest).length ≤ f := by
          rw [encList_cons, List.length_append] at hlen
          have := encodeRune_length_pos r
          omega
        obtain ⟨qs', h1, h2, h3⟩ := ih rest hrest hlr
        refine ⟨qs', h1, h2, ?_⟩
        rw [encList_cons, List.length_append]
        omega
      · rw [if_neg hsp]
        exact ⟨r :: rest, hqs, rfl, le_rfl⟩

/-- Trimming white space from the right of a strict encoding yields a strict
encoding that is no longer. -/
lemma trimRightAux_enc : ∀ (fuel : Nat) (qs : List Nat), StrictRunes qs →
    (encList qs).length ≤ fuel →
    ∃ qs', StrictRunes qs' ∧ trimRightAux fuel (encList qs) = encList qs' ∧
      (encList qs').length ≤ (encList qs).length := by
  intro fuel
  induction fuel with
  | zero =>
    intro qs hqs _
    exact ⟨qs, hqs, rfl, le_rfl⟩
  | succ f ih =>
    intro qs hqs hlen
    rcases List.eq_nil_or_concat qs with rfl | ⟨init, r, rfl⟩
    · exact ⟨[], hqs, by rw [encList_nil, trimRightAux, if_pos rfl], le_rfl⟩
    · have hv : ValidScalar r := (hqs r (by simp)).1
      have hinit : StrictRunes init := fun x hx => hqs x (by simp [hx])
      have hsh : encList (init.concat r) = encList init ++ encodeRune r := by
        rw [List.concat_eq_append, encList_append, encList_cons, encList_nil,
          List.append_nil]
      have hne : encList (init.concat r) ≠ [] := by
        rw [hsh]
        intro h
        have := congrArg List.length h
        rw [List.length_append, List.length_nil] at this
        have := encodeRune_length_pos r
        omega
      have hdec : goDecodeLastRune (encList (init.concat r)) =
          (r, (encodeRune r).length) := by
        rw [hsh]
        exact goDecodeLastRune_enc (encList init) r hv
      rw [trimRightAux, if_neg hne]
      simp only [hdec]
      by_cases hsp : isSpaceRune r = true
      · rw [if_pos hsp]
        have htake : (encList (init.concat r)).take
            ((encList (init.concat r)).length - (encodeRune r).length) =
            encList init := by
          rw [hsh, List.length_append, Nat.add_sub_cancel]
          exact List.take_left _ _
        rw [htake]
        have hli : (encList init).length ≤ f := by
          rw [hsh, List.length_append] at hlen
          have := encodeRune_length_pos r
          omega
        obtain ⟨qs', h1, h2, h3⟩ := ih init hinit hli
        refine ⟨qs', h1, h2, ?_⟩
        rw [hsh, List.length_append]
        omega
      · rw [if_neg hsp]
        exact ⟨init.concat r, hqs, rfl, le_rfl⟩

/-- Go `strings.TrimSpace` of a strict encoding is a strict encoding. -/
lemma trimSpace_enc (qs : List Nat) (hqs : StrictRunes qs) :
    ∃ qs', StrictRunes qs' ∧ trimSpace (encList qs) = encList qs' := by
  obtain ⟨q1, h1, e1, l1⟩ := trimLeftAux_enc (encList qs).length qs hqs le_rfl
  obtain ⟨q2, h2, e2, _⟩ := trimRightAux_enc (encList qs).length q1 h1 (by omega)
  exact ⟨q2, h2, by rw [trimSpace, e1, e2]⟩

/-- No byte of the encoding of a rune other than U+000A is the newline
byte. -/
lemma encodeRune_no_nl (r : Nat) (hr : r ≠ 10) : ∀ b ∈ encodeRune r, b ≠ 10 := by
  intro b hb
  unfold encodeRune at hb
  split_ifs at hb with h1 h2 h3
  · simp at hb
    omega
  · simp at hb
    rcases hb with hb | hb <;> omega
  · simp at hb
    rcases hb with hb | hb | hb <;> omega
  · simp at hb
    rcases hb with hb | hb | hb | hb <;> omega

lemma splitOnNl_ne_nil : ∀ s : List Nat, splitOnNl s ≠ [] := by
  intro s
  cases s with
  | nil => simp [splitOnNl]
  | cons b rest =>
    rw [splitOnNl]
    by_cases hb : b = 10
    · simp [hb]
    · rw [if_neg hb]
      cases splitOnNl rest <;> simp

lemma runeSplitNl_ne_nil : ∀ qs : List Nat, runeSplitNl qs ≠ [] := by
  intro qs
  cases qs with
  | nil => simp [runeSplitNl]
  | cons r rest =>
    rw [runeSplitNl]
    by_cases hr : r = 10
    · simp [hr]
    · rw [if_neg hr]
      cases runeSplitNl rest <;> simp

/-- Prepending newline-free bytes extends the first piece of the split. -/
lemma splitOnNl_append_noNl : ∀ (pre rest : List Nat), (∀ b ∈ pre, b ≠ 10) →
    ∀ (p : List Nat) (ps : List (List Nat)), splitOnNl rest = p :: ps →
    splitOnNl (pre ++ rest) = (pre ++ p) :: ps := by
  intro pre
  induction pre with
  | nil =>
    intro rest _ p ps hp
    simpa using hp
  | cons b pre' ih =>
    intro rest hnl p ps hp
    have hb : b ≠ 10 := hnl b (by simp)
    rw [List.cons_append, splitOnNl, if_neg hb,
      ih rest (fun x hx => hnl x (by simp [hx])) p ps hp]
    rfl

/-- Splitting a strict encoding on the newline byte is the encoding of the
rune-level split. -/
lemma splitOnNl_encList : ∀ (qs : List Nat), StrictRunes qs →
    splitOnNl (encList qs) = (runeSplitNl qs).map encList := by
  intro qs
  induction qs with
  | nil =>
    intro _
    simp [encList_nil, splitOnNl, runeSplitNl, encList]
  | cons r rest ih =>
    intro hqs
    obtain ⟨⟨hv, _⟩, hrest⟩ := strictRunes_cons hqs
    rw [encList_cons]
    by_cases hr : r = 10
    · subst hr
      have henc : encodeRune 10 = [10] := encodeRune_ascii 10 (by omega)
      rw [henc, List.cons_append, List.nil_append, splitOnNl, if_pos rfl, ih hrest,
        runeSplitNl]
      simp [encList_nil]
    · obtain ⟨q, qs', hq⟩ : ∃ q qs', runeSplitNl rest = q :: qs' := by
        cases h : runeSplitNl rest with
        | nil => exact absurd h (runeSplitNl_ne_nil rest)
        | cons q qs' => exact ⟨q, qs', rfl⟩
      have hsp : splitOnNl (encList rest) = encList q :: qs'.map encList := by
        rw [ih hrest, hq]
        rfl
      rw [splitOnNl_append_noNl (encodeRune r) (encList rest) (encodeRune_no_nl r hr)
        _ _ hsp, runeSplitNl, if_neg hr, hq]
      rw [List.map_cons, encList_cons]

/-- Every piece of the rune-level split of a strict list is strict. -/
lemma runeSplitNl_strict : ∀ (qs : List Nat), StrictRunes qs →
    ∀ ls ∈ runeSplitNl qs, StrictRunes ls := by
  intro qs
  induction qs with
  | nil =>
    intro _ ls hls
    simp [runeSplitNl] at hls
    subst hls
    intro x hx
    exact absurd hx (List.not_mem_nil x)
  | cons r rest ih =>
    intro hqs ls hls
    obtain ⟨⟨hv, hne⟩, hrest⟩ := strictRunes_cons hqs
    rw [runeSplitNl] at hls
    by_cases hr : r = 10
    · rw [if_pos hr] at hls
      rcases List.mem_cons.mp hls with rfl | hls
      · intro x hx
        exact absurd hx (List.not_mem_nil x)
      · exact ih hrest ls hls
    · rw [if_neg hr] at hls
      obtain ⟨q, qs', hq⟩ : ∃ q qs', runeSplitNl rest = q :: qs' := by
        cases h : runeSplitNl rest with
        | nil => exact absurd h (runeSplitNl_ne_nil rest)
        | cons q qs' => exact ⟨q, qs', rfl⟩
      rw [hq] at hls
      simp only at hls
      rcases List.mem_cons.mp hls with rfl | hls
      · intro x hx
        rcases List.mem_cons.mp hx with rfl | hx
        · exact ⟨hv, hne⟩
        · exact ih hrest q (by rw [hq]; simp) x hx
      · exact ih hrest ls (by rw [hq]; simp [hls])

/-- Go's range-over-string positions on a strict encoding are exactly the
spec-side rune positions. -/
lemma runePosAux_enc (ls : List Nat) (hls : StrictRunes ls) :
    ∀ (c a : List Nat) (fuel : Nat), ls = a ++ c → (encList c).length ≤ fuel →
    runePosAux (encList ls) fuel (encList a).length =
      posList c (encList a).length := by
  intro c
  induction c with
  | nil =>
    intro a fuel hd _
    cases fuel with
    | zero => rfl
    | succ f =>
      rw [runePosAux, posList, if_neg]
      subst hd
      rw [encList_append, List.length_append]
      simp [encList_nil]
  | cons r c' ih =>
    intro a fuel hd hfuel
    have hm1 : 1 ≤ (encodeRune r).length := encodeRune_length_pos r
    have hlc : (encList (r :: c')).length =
        (encodeRune r).length + (encList c').length := by
      rw [encList_cons, List.length_append]
    cases fuel with
    | zero => omega
    | succ f =>
      have hv : ValidScalar r := by
        apply (hls r _).1
        rw [hd]
        simp
      have hlt : (encList a).length < (encList ls).length := by
        rw [hd, encList_append, List.length_append, hlc]
        omega
      rw [runePosAux, if_pos hlt]
      have hdrop : (encList ls).drop (encList a).length = encList (r :: c') := by
        rw [hd]
        exact drop_encList_boundary a (r :: c')
      have hdec : goDecodeRune ((encList ls).drop (encList a).length) =
          (r, (encodeRune r).length) := by
        rw [hdrop, encList_cons]
        exact goDecodeRune_enc r hv (encList c')
      rw [hdec]
      have hpos : (encList a).length + (encodeRune r).length =
          (encList (a ++ [r])).length := by
        rw [encList_append, List.length_append, encList_cons, encList_nil,
          List.append_nil]
      rw [posList]
      congr 1
      rw [hpos, ih (a ++ [r]) f (by rw [hd]; simp) (by omega)]

lemma runePositions_enc (ls : List Nat) (hls : StrictRunes ls) :
    runePositions (encList ls) = posList ls 0 := by
  have h := runePosAux_enc ls hls ls [] (encList ls).length rfl le_rfl
  rw [encList_nil] at h
  simpa [runePositions] using h

/-- Invariant of the per-line splitting fold of GetSubLines on a strict
line: both cut points stay on character boundaries, every emitted piece is a
within-budget strict encoding followed by the marker, and the byte span not
yet emitted stays within the threshold `M - |cm|`. -/
lemma subLineFold_inv (ls : List Nat) (hls : StrictRunes ls) (M : Int)
    (cm : List Nat) (hcm4 : 4 ≤ cm.length) (hM : (cm.length : Int) + 4 ≤ M) :
    ∀ (c a b : List Nat) (w : Nat) (fs : List (List Nat)),
    ls = a ++ (b ++ w :: c) →
    ((encList b).length : Int) ≤ M - cm.length →
    (∀ f ∈ fs, goodFrag M cm f) →
    ∃ (fs' : List (List Nat)) (a' b' : List Nat) (w' : Nat),
      (posList c ((encList (a ++ b)).length + (encodeRune w).length)).foldl
          (subLineStep (encList ls) M cm)
          (fs, (encList a).length, (encList (a ++ b)).length)
        = (fs', (encList a').length, (encList (a' ++ b')).length) ∧
      ls = a' ++ (b' ++ [w']) ∧
      ((encList b').length : Int) ≤ M - cm.length ∧
      (∀ f ∈ fs', goodFrag M cm f) := by
  intro c
  induction c with
  | nil =>
    intro a b w fs hd hb hfs
    exact ⟨fs, a, b, w, rfl, hd, hb, hfs⟩
  | cons r' c'' ih =>
    intro a b w fs hd hb hfs
    have hm1 : 1 ≤ (encodeRune w).length := encodeRune_length_pos w
    have hm4 : (encodeRune w).length ≤ 4 := encodeRune_length_le w
    have hlab : (encList (a ++ b)).length = (encList a).length + (encList b).length := by
      rw [encList_append, List.length_append]
    have hq : (encList (a ++ b)).length + (encodeRune w).length =
        (encList ((a ++ b) ++ [w])).length := by
      rw [encList_append (a ++ b), List.length_append, encList_cons, encList_nil,
        List.append_nil]
    have hq2 : (encList (a ++ b)).length + (encodeRune w).length =
        (encList (a ++ (b ++ [w]))).length := by
      rw [hq, ← List.append_assoc]
    rw [posList, List.foldl_cons]
    simp only [subLineStep]
    by_cases htr : (((encList (a ++ b)).length + (encodeRune w).length : Nat) : Int) -
        ((encList a).length : Nat) > M - (cm.length : Nat)
    · rw [if_pos htr]
      have hd2 : ls = (a ++ b) ++ (w :: r' :: c'') := by
        rw [hd, List.append_assoc]
      have hpiece : goSub (encList ls) (encList a).length (encList (a ++ b)).length =
          encList b := by
        simp only [goSub]
        rw [hd2]
        have ht : (encList ((a ++ b) ++ w :: r' :: c'')).take (encList (a ++ b)).length =
            encList (a ++ b) := take_encList_boundary (a ++ b) (w :: r' :: c'')
        rw [ht]
        exact drop_encList_boundary a b
      rw [hpiece]
      have hls2 : StrictRunes (a ++ (b ++ w :: r' :: c'')) := by
        rw [← hd]
        exact hls
      have hbs : StrictRunes b :=
        strictRunes_append_left (strictRunes_append_right hls2)
      have hgood : goodFrag M cm (encList b ++ cm) := by
        refine ⟨?_, b, hbs, Or.inr rfl⟩
        rw [List.length_append]
        push_cast
        omega
      have hfs2 : ∀ f ∈ fs ++ [encList b ++ cm], goodFrag M cm f := by
        intro f hf
        rcases List.mem_append.mp hf with hf | hf
        · exact hfs f hf
        · rw [List.mem_singleton.mp hf]
          exact hgood
      have hd3 : ls = (a ++ b) ++ ([w] ++ r' :: c'') := by
        rw [hd, List.append_assoc]
        rfl
      have hbw : ((encList [w]).length : Int) ≤ M - cm.length := by
        have : (encList [w]).length = (encodeRune w).length := by
          rw [encList_cons, encList_nil, List.append_nil]
        rw [this]
        push_cast
        omega
      obtain ⟨fs', a', b', w', heq, hd', hb', hfs'⟩ :=
        ih (a ++ b) [w] r' (fs ++ [encList b ++ cm]) hd3 hbw hfs2
      refine ⟨fs', a', b', w', ?_, hd', hb', hfs'⟩
      rw [hq]
      exact heq
    · rw [if_neg htr]
      have hd3 : ls = a ++ ((b ++ [w]) ++ r' :: c'') := by
        rw [hd, List.append_assoc]
        rfl
      have hbw : ((encList (b ++ [w])).length : Int) ≤ M - cm.length := by
        have : (encList (b ++ [w])).length =
            (encList b).length + (encodeRune w).length := by
          rw [encList_append, List.length_append, encList_cons, encList_nil,
            List.append_nil]
        rw [this]
        push_cast at htr ⊢
        omega
      obtain ⟨fs', a', b', w', heq, hd', hb', hfs'⟩ :=
        ih a (b ++ [w]) r' fs hd3 hbw hfs
      refine ⟨fs', a', b', w', ?_, hd', hb', hfs'⟩
      rw [hq2]
      exact heq

/-- Every fragment of the per-line splitting of a nonempty strict line is
within budget and is a strict encoding, optionally followed by the
marker. -/
lemma subLineSplit_good (ls : List Nat) (hls : StrictRunes ls) (hne : ls ≠ [])
    (M : Int) (cm : List Nat) (hcm4 : 4 ≤ cm.length)
    (hM : (cm.length : Int) + 4 ≤ M) :
    ∀ f ∈ subLineSplit (encList ls) M cm, goodFrag M cm f := by
  cases ls with
  | nil => exact absurd rfl hne
  | cons w c =>
    intro f hf
    rw [subLineSplit, runePositions_enc (w :: c) hls, posList, List.foldl_cons] at hf
    simp only [subLineStep] at hf
    have hfirst : ¬(((0 : Nat) : Int) - (((([] : List (List Nat)), (0 : Nat),
        (0 : Nat)).2.1 : Nat) : Int) > M - (cm.length : Int)) := by
      simp only
      push_cast
      omega
    rw [if_neg hfirst] at hf
    obtain ⟨fs', a', b', w', heq, hd', hb', hfs'⟩ :=
      subLineFold_inv (w :: c) hls M cm hcm4 hM c [] [] w []
        rfl (by rw [encList_nil, List.length_nil]; push_cast; omega)
        (by intro f hf; exact absurd hf (List.not_mem_nil f))
    rw [List.nil_append, encList_nil, List.length_nil] at heq
    rw [heq] at hf
    simp only at hf
    rcases List.mem_append.mp hf with hf | hf
    · exact hfs' f hf
    · rw [List.mem_singleton.mp hf]
      have hdrop : (encList (w :: c)).drop (encList a').length =
          encList (b' ++ [w']) := by
        conv_lhs => rw [hd']
        exact drop_encList_boundary a' (b' ++ [w'])
      rw [hdrop]
      have hlen : (encList (b' ++ [w'])).length =
          (encList b').length + (encodeRune w').length := by
        rw [encList_append, List.length_append, encList_cons, encList_nil,
          List.append_nil]
      have hm4 : (encodeRune w').length ≤ 4 := encodeRune_length_le w'
      refine ⟨?_, b' ++ [w'], ?_, Or.inl rfl⟩
      · rw [hlen]
        push_cast
        omega
      · have hls2 : StrictRunes (a' ++ (b' ++ [w'])) := by
          rw [← hd']
          exact hls
        exact strictRunes_append_right hls2

/-- Every fragment of GetSubLines on a strict message is within budget and
is a strict encoding, optionally followed by the effective marker, provided
the effective marker is at least 4 bytes and the budget exceeds it by at
least 4 bytes. -/
lemma GetSubLines_good (qs : List Nat) (hqs : StrictRunes qs) (M : Int)
    (cm0 : List Nat) (hcm4 : 4 ≤ (effMarker cm0).length)
    (hM : ((effMarker cm0).length : Int) + 4 ≤ M) :
    ∀ f ∈ GetSubLines (encList qs) M cm0, goodFrag M (effMarker cm0) f := by
  intro f hf
  simp only [GetSubLines] at hf
  obtain ⟨qs', hqs', htrim⟩ := trimSpace_enc qs hqs
  rw [htrim, splitOnNl_encList qs' hqs', List.mem_flatMap] at hf
  obtain ⟨line, hline, hfin⟩ := hf
  rw [List.mem_map] at hline
  obtain ⟨ls, hlsmem, rfl⟩ := hline
  have hls : StrictRunes ls := runeSplitNl_strict qs' hqs' ls hlsmem
  by_cases hnil : encList ls = []
  · rw [if_pos hnil] at hfin
    exact absurd hfin (List.not_mem_nil f)
  · rw [if_neg hnil] at hfin
    by_cases hlen : M = 0 ∨ ((encList ls).length : Int) ≤ M
    · rw [if_pos hlen] at hfin
      have hfl : f = encList ls := List.mem_singleton.mp hfin
      rcases hlen with h0 | hle
      · omega
      · exact ⟨by rw [hfl]; exact hle, ls, hls, by rw [hfl]; exact Or.inl rfl⟩
    · rw [if_neg hlen] at hfin
      have hlsne : ls ≠ [] := by
        intro h
        subst h
        exact hnil encList_nil
      exact subLineSplit_good ls hls hlsne M (effMarker cm0) hcm4 hM f hfin

/-- On a strict text, ClipMessage with a sufficient budget succeeds and
returns a within-budget fragment that is a strict encoding, optionally
followed by the effective marker. -/
lemma ClipMessage_good (rs : List Nat) (hrs : StrictRunes rs) (M : Int)
    (cm0 : List Nat) (hM : ((effMarker cm0).length : Int) ≤ M) :
    ∃ f, ClipMessage (encList rs) M cm0 = some f ∧ goodFrag M (effMarker cm0) f := by
  simp only [ClipMessage]
  by_cases hgt : ((encList rs).length : Int) > M
  · rw [if_pos hgt]
    have hknn : ¬(M - ((effMarker cm0).length : Int) < 0) := by omega
    rw [if_neg hknn]
    refine ⟨_, rfl, ?_⟩
    have hkle : (M - ((effMarker cm0).length : Int)).toNat ≤ (encList rs).length := by
      omega
    rw [clipBackup_take rs hrs _ hkle]
    obtain ⟨a, b, hab, hlena⟩ :=
      lastBnd_is_boundary rs (M - ((effMarker cm0).length : Int)).toNat
    have htk : (encList rs).take
        (lastBnd rs (M - ((effMarker cm0).length : Int)).toNat) = encList a := by
      rw [← hlena, hab]
      exact take_encList_boundary a b
    rw [htk]
    refine ⟨?_, a, ?_, Or.inr rfl⟩
    · have hble : lastBnd rs (M - ((effMarker cm0).length : Int)).toNat ≤
          (M - ((effMarker cm0).length : Int)).toNat := lastBnd_le _ _
      have : (encList a).length ≤ (M - ((effMarker cm0).length : Int)).toNat := by
        omega
      rw [List.length_append]
      push_cast
      omega
    · rw [hab] at hrs
      exact strictRunes_append_left hrs
  · rw [if_neg hgt]
    exact ⟨encList rs, rfl, ⟨by omega, rs, hrs, Or.inl rfl⟩⟩

/-- The outer loop of ClipOrSplitMessage on a strict text cuts whole-rune
chunks within the budget and leaves a strict remainder, provided the budget
is at least 4 bytes. -/
lemma splitLoop_good (M : Int) (hM4 : 4 ≤ M) : ∀ (fuel : Nat) (rs : List Nat),
    StrictRunes rs →
    ∃ rs', StrictRunes rs' ∧ (splitLoop M fuel (encList rs)).2 = encList rs' ∧
      ∀ p ∈ (splitLoop M fuel (encList rs)).1,
        (p.length : Int) ≤ M ∧ ∃ ps, StrictRunes ps ∧ p = encList ps := by
  intro fuel
  induction fuel with
  | zero =>
    intro rs hrs
    exact ⟨rs, hrs, rfl, by intro p hp; exact absurd hp (List.not_mem_nil p)⟩
  | succ f ih =>
    intro rs hrs
    by_cases hgt : ((encList rs).length : Int) > M
    · have hstep : splitLoop M (f + 1) (encList rs) =
          (splitChunk (encList rs) M ::
            (splitLoop M f ((encList rs).drop (splitChunk (encList rs) M).length)).1,
           (splitLoop M f ((encList rs).drop (splitChunk (encList rs) M).length)).2) := by
        rw [splitLoop, if_pos hgt]
      have hkle : M.toNat ≤ (encList rs).length := by omega
      have hb1 : 1 ≤ lastBnd rs M.toNat := by
        have := lastBnd_step3 rs M.toNat hkle
        omega
      have hchunk : splitChunk (encList rs) M = (encList rs).take (lastBnd rs M.toNat) := by
        have h := splitChunk_cut rs hrs M.toNat (by omega) hkle hb1
        rwa [Int.toNat_of_nonneg (by omega : (0 : Int) ≤ M)] at h
      obtain ⟨a, b, hab, hlena⟩ := lastBnd_is_boundary rs M.toNat
      have htk : (encList rs).take (lastBnd rs M.toNat) = encList a := by
        rw [← hlena, hab]
        exact take_encList_boundary a b
      have hdrop : (encList rs).drop (splitChunk (encList rs) M).length = encList b := by
        rw [hchunk, htk, hab]
        exact drop_encList_boundary a b
      have hbst : StrictRunes b := by
        rw [hab] at hrs
        exact strictRunes_append_right hrs
      have hast : StrictRunes a := by
        rw [hab] at hrs
        exact strictRunes_append_left hrs
      obtain ⟨rs', h1, h2, h3⟩ := ih b hbst
      rw [hstep, hdrop]
      refine ⟨rs', h1, h2, ?_⟩
      intro p hp
      simp only [List.mem_cons] at hp
      rcases hp with rfl | hp
      · refine ⟨?_, a, hast, by rw [hchunk, htk]⟩
        rw [hchunk, htk]
        have : (encList a).length ≤ M.toNat := by
          rw [hlena]
          exact lastBnd_le _ _
        push_cast
        omega
      · exact h3 p hp
    · have hstep : splitLoop M (f + 1) (encList rs) = ([], encList rs) := by
        rw [splitLoop, if_neg hgt]
      rw [hstep]
      exact ⟨rs, hrs, rfl, by intro p hp; exact absurd hp (List.not_mem_nil p)⟩

end Helper

namespace Helper

/- ------------------------------------------------------------------
Claim theorems (first group).
------------------------------------------------------------------ -/

/-- C10: RemoveEmptyNewLines is idempotent, because its output never contains
two consecutive newline bytes and neither starts nor ends with a newline. -/
theorem c10_remove_idem : ∀ s : List Nat,
    RemoveEmptyNewLines (RemoveEmptyNewLines s) = RemoveEmptyNewLines s ∧
    noDbl (RemoveEmptyNewLines s) = true ∧
    (∀ b, (RemoveEmptyNewLines s).head? = some b → b ≠ 10) ∧
    (∀ b, (RemoveEmptyNewLines s).getLast? = some b → b ≠ 10) := by
  intro s
  have hnd : noDbl (RemoveEmptyNewLines s) = true := noDbl_collapseNl _
  have hh : ∀ b, (RemoveEmptyNewLines s).head? = some b → b ≠ 10 := by
    intro b hb
    unfold RemoveEmptyNewLines at hb
    rw [collapseNl_head?] at hb
    exact trimNl_head? s b hb
  have hl : ∀ b, (RemoveEmptyNewLines s).getLast? = some b → b ≠ 10 := by
    intro b hb
    unfold RemoveEmptyNewLines at hb
    rw [collapseNl_getLast?] at hb
    exact trimNl_getLast? s b hb
  refine ⟨?_, hnd, hh, hl⟩
  show collapseNl (trimNl (RemoveEmptyNewLines s)) = RemoveEmptyNewLines s
  rw [trimNl_eq_self _ hh hl]
  exact collapseNl_of_noDbl _ hnd

/-- C10 witness: the theorem applied at the concrete input "\n\na\n\n\nb\n". -/
theorem c10_remove_idem_witness :
    RemoveEmptyNewLines (RemoveEmptyNewLines [10, 10, 97, 10, 10, 10, 98, 10]) =
      RemoveEmptyNewLines [10, 10, 97, 10, 10, 10, 98, 10] ∧
    noDbl (RemoveEmptyNewLines [10, 10, 97, 10, 10, 10, 98, 10]) = true ∧
    (∀ b, (RemoveEmptyNewLines [10, 10, 97, 10, 10, 10, 98, 10]).head? = some b → b ≠ 10) ∧
    (∀ b, (RemoveEmptyNewLines [10, 10, 97, 10, 10, 10, 98, 10]).getLast? = some b → b ≠ 10) :=
  c10_remove_idem [10, 10, 97, 10, 10, 10, 98, 10]

/-- C7: with maxLineLength = 0, GetSubLines returns exactly the non-empty
lines of the trimmed message split on newline, in order, unmodified; in
particular GetSubLines "hello\n\nworld" 0 "" = ["hello", "world"]. -/
theorem c7_zero_budget :
    (∀ msg cm0, GetSubLines msg 0 cm0 =
      (splitOnNl (trimSpace msg)).filter fun l => !l.isEmpty) ∧
    GetSubLines [104, 101, 108, 108, 111, 10, 10, 119, 111, 114, 108, 100] 0 [] =
      [[104, 101, 108, 108, 111], [119, 111, 114, 108, 100]] := by
  constructor
  · intro msg cm0
    simp only [GetSubLines]
    generalize splitOnNl (trimSpace msg) = L
    induction L with
    | nil => rfl
    | cons l ls ih =>
      rw [List.flatMap_cons, List.filter_cons]
      by_cases hl : l = []
      · subst hl
        simpa using ih
      · have hl2 : (!l.isEmpty) = true := by
          cases l with
          | nil => exact absurd rfl hl
          | cons a t => rfl
        simp only [hl, if_false, hl2, if_true]
        rw [if_pos (Or.inl trivial), ih]
        rfl
  · decide

/-- C9: with splitMax ≤ 1 the splitting loop never runs, and
ClipOrSplitMessage returns exactly the singleton ClipMessage result. -/
theorem c9_no_split : ∀ (text : List Nat) (len : Int) (cm : List Nat) (sm : Int),
    sm ≤ 1 →
    ClipOrSplitMessage text len cm sm = (ClipMessage text len cm).map fun c => [c] := by
  intro text len cm sm hsm
  have h0 : (sm - 1).toNat = 0 := by omega
  simp only [ClipOrSplitMessage, h0, splitLoop]
  cases h : ClipMessage text len cm <;> simp [h]

/-- C9 witness: splitMax = 1 on "abc" with budget 2 and marker "_". -/
theorem c9_no_split_witness :
    (1 : Int) ≤ 1 ∧
    ClipOrSplitMessage [97, 98, 99] 2 [95] 1 =
      (ClipMessage [97, 98, 99] 2 [95]).map (fun c => [c]) :=
  ⟨by decide, c9_no_split [97, 98, 99] 2 [95] 1 (by decide)⟩

/-- C5: ClipMessage returns a text already within budget unchanged, and
clipping is idempotent: re-clipping any successful result is a no-op. -/
theorem c5_clip_idem :
    (∀ (x : List Nat) (b : Int) (m : List Nat),
      (x.length : Int) ≤ b → ClipMessage x b m = some x) ∧
    (∀ (x : List Nat) (b : Int) (m y : List Nat),
      ClipMessage x b m = some y → ClipMessage y b m = some y) := by
  have part1 : ∀ (x : List Nat) (b : Int) (m : List Nat),
      (x.length : Int) ≤ b → ClipMessage x b m = some x := by
    intro x b m h
    simp only [ClipMessage]
    rw [if_neg (by omega)]
  refine ⟨part1, ?_⟩
  intro x b m y h
  simp only [ClipMessage] at h
  by_cases hlen : (x.length : Int) > b
  · rw [if_pos hlen] at h
    by_cases hk : b - ((effMarker m).length : Int) < 0
    · rw [if_pos hk] at h
      exact absurd h (by simp)
    · rw [if_neg hk] at h
      have hy := Option.some.inj h
      apply part1
      rw [← hy, List.length_append]
      have h1 := clipBackup_length_le (x.take (b - ((effMarker m).length : Int)).toNat)
      have h2 : (x.take (b - ((effMarker m).length : Int)).toNat).length ≤
          (b - ((effMarker m).length : Int)).toNat := by
        simp [List.length_take]
      push_cast
      omega
  · rw [if_neg hlen] at h
    have hxy := Option.some.inj h
    rw [← hxy]
    exact part1 _ _ _ (by omega)

/-- C5 witness: "abc" with budget 2 and marker "_" clips to "a_", which
re-clips to itself; "a" with budget 3 is returned unchanged. -/
theorem c5_clip_idem_witness :
    ClipMessage [97, 98, 99] 2 [95] = some [97, 95] ∧
    ClipMessage [97, 95] 2 [95] = some [97, 95] ∧
    ClipMessage [97] 3 [95] = some [97] :=
  ⟨by decide, c5_clip_idem.2 [97, 98, 99] 2 [95] [97, 95] (by decide),
   c5_clip_idem.1 [97] 3 [95] (by decide)⟩

/-- C4: with budget 1 and the default 18-byte marker, ClipMessage on "ab"
reaches the negative slice `text[:1-18]` and panics (modelled as `none`); no
configuration error is surfaced to the caller.  The same panic propagates out
of ClipOrSplitMessage. -/
theorem c4_panic : ClipMessage [97, 98] 1 [] = none ∧
    ClipOrSplitMessage [97, 98, 99] 1 [] 2 = none := by decide

/-- C2: the splitting loop of ClipOrSplitMessage loses no bytes: at every
iteration count, the emitted parts concatenated with the remaining text equal
the original input; consequently the pre-final parts of any successful
ClipOrSplitMessage result concatenate to a prefix of the input (the final
part being the clip of the remainder), and each part is a contiguous
substring of the input. -/
theorem c2_conservation :
    (∀ (len : Int) (fuel : Nat) (rem : List Nat),
      (splitLoop len fuel rem).1.flatten ++ (splitLoop len fuel rem).2 = rem) ∧
    (∀ (text : List Nat) (len : Int) (cm : List Nat) (sm : Int) (res : List (List Nat)),
      ClipOrSplitMessage text len cm sm = some res →
      (∃ rem, res.dropLast.flatten ++ rem = text ∧
        ClipMessage rem len cm = res.getLast?) ∧
      ∀ p ∈ res.dropLast, ∃ u v, text = u ++ p ++ v) := by
  refine ⟨fun len fuel rem => splitLoop_join fuel len rem, ?_⟩
  intro text len cm sm res h
  simp only [ClipOrSplitMessage] at h
  cases hc : ClipMessage (splitLoop len (sm - 1).toNat text).2 len cm with
  | none => rw [hc] at h; simp at h
  | some last =>
    rw [hc, Option.map_some'] at h
    have h2 := Option.some.inj h
    have hd : res.dropLast = (splitLoop len (sm - 1).toNat text).1 := by
      rw [← h2]
      exact List.dropLast_concat
    have hg : res.getLast? = some last := by
      rw [← h2]
      exact List.getLast?_concat _
    constructor
    · exact ⟨(splitLoop len (sm - 1).toNat text).2,
        by rw [hd]; exact splitLoop_join _ _ _, by rw [hg, hc]⟩
    · intro p hp
      rw [hd] at hp
      exact flatten_append_eq_infix _ _ text (splitLoop_join _ _ _) p hp

/-- C2 witness: segment("abcdefghij", 4, "_", 3) = ["abcd", "efgh", "ij"],
with the conservation facts instantiated there. -/
theorem c2_conservation_witness :
    ClipOrSplitMessage [97, 98, 99, 100, 101, 102, 103, 104, 105, 106] 4 [95] 3 =
      some [[97, 98, 99, 100], [101, 102, 103, 104], [105, 106]] ∧
    ((∃ rem,
        ([[97, 98, 99, 100], [101, 102, 103, 104], [105, 106]] :
          List (List Nat)).dropLast.flatten ++ rem =
          [97, 98, 99, 100, 101, 102, 103, 104, 105, 106] ∧
        ClipMessage rem 4 [95] =
          ([[97, 98, 99, 100], [101, 102, 103, 104], [105, 106]] :
            List (List Nat)).getLast?) ∧
      ∀ p ∈ ([[97, 98, 99, 100], [101, 102, 103, 104], [105, 106]] :
          List (List Nat)).dropLast,
        ∃ u v, [97, 98, 99, 100, 101, 102, 103, 104, 105, 106] = u ++ p ++ v) :=
  ⟨by decide,
   c2_conservation.2 [97, 98, 99, 100, 101, 102, 103, 104, 105, 106] 4 [95] 3
     [[97, 98, 99, 100], [101, 102, 103, 104], [105, 106]] (by decide)⟩

/-- C6 counterexample: with maxParts = 0 the code still returns one fragment,
so the result length is not at most maxParts. -/
theorem c6_counterexample :
    ClipOrSplitMessage [97] 5 [120] 0 = some [[97]] ∧
    ¬(([[97]] : List (List Nat)).length ≤ 0) := by decide

/-- C6 amended: whenever ClipOrSplitMessage returns (does not panic), the
result length is at least 1 and at most max(1, maxParts): the bound claimed
by the spec holds for maxParts ≥ 1, and for maxParts ≤ 0 exactly one
fragment is returned. -/
theorem c6_amended : ∀ (text : List Nat) (len : Int) (cm : List Nat) (sm : Int)
    (res : List (List Nat)),
    ClipOrSplitMessage text len cm sm = some res →
    1 ≤ res.length ∧ (res.length : Int) ≤ max 1 sm := by
  intro text len cm sm res h
  simp only [ClipOrSplitMessage] at h
  cases hc : ClipMessage (splitLoop len (sm - 1).toNat text).2 len cm with
  | none => rw [hc] at h; simp at h
  | some last =>
    rw [hc, Option.map_some'] at h
    have h2 := Option.some.inj h
    have hlen := splitLoop_parts_le (sm - 1).toNat len text
    rw [← h2]
    simp only [List.length_append, List.length_cons, List.length_nil]
    constructor
    · omega
    · push_cast
      omega

/-- C6 amended witness: budget 1 splits "abc" into two fragments with
maxParts = 2. -/
theorem c6_amended_witness :
    ClipOrSplitMessage [97, 98, 99] 1 [95] 2 = some [[97], [95]] ∧
    (1 ≤ ([[97], [95]] : List (List Nat)).length ∧
      ((([[97], [95]] : List (List Nat)).length : Nat) : Int) ≤ max 1 2) :=
  ⟨by decide, c6_amended [97, 98, 99] 1 [95] 2 [[97], [95]] (by decide)⟩

/-- C8 counterexample: on empty input ClipOrSplitMessage returns a sequence
containing the empty string. -/
theorem c8_counterexample :
    ClipOrSplitMessage [] 5 [120] 3 = some [[]] ∧ ([] : List Nat) ∈ [([] : List Nat)] := by
  decide

/-- C8 amended: GetSubLines never emits an empty fragment, and, provided the
input text is nonempty, neither does any successful ClipOrSplitMessage call
(on empty input ClipOrSplitMessage returns `[""]`). -/
theorem c8_amended :
    (∀ (msg : List Nat) (ml : Int) (cm0 : List Nat), ∀ f ∈ GetSubLines msg ml cm0, f ≠ []) ∧
    (∀ (text : List Nat) (len : Int) (cm : List Nat) (sm : Int) (res : List (List Nat)),
      text ≠ [] → ClipOrSplitMessage text len cm sm = some res → ∀ f ∈ res, f ≠ []) := by
  constructor
  · intro msg ml cm0 f hf
    simp only [GetSubLines] at hf
    rw [List.mem_flatMap] at hf
    obtain ⟨line, hline, hf⟩ := hf
    by_cases h1 : line = []
    · rw [if_pos h1] at hf
      simp at hf
    · rw [if_neg h1] at hf
      have hL0 : 0 < line.length := by
        cases line with
        | nil => exact absurd rfl h1
        | cons a t => simp
      by_cases h2 : ml = 0 ∨ (line.length : Int) ≤ ml
      · rw [if_pos h2] at hf
        have hfe : f = line := by simpa using hf
        rw [hfe]
        exact h1
      · rw [if_neg h2] at hf
        simp only [subLineSplit] at hf
        have hinv := subLineSplit_fold_inv line ml (effMarker cm0) (runePositions line)
          [] 0 0 (fun p hp => runePosAux_lt line _ _ p hp) hL0 hL0
          (by intro g hg; simp at hg) (effMarker_ne cm0)
        rcases List.mem_append.mp hf with hf | hf
        · exact hinv.1 f hf
        · have hfe := List.mem_singleton.mp hf
          rw [hfe]
          intro hcon
          rw [List.drop_eq_nil_iff] at hcon
          have := hinv.2
          omega
  · intro text len cm sm res htext h
    simp only [ClipOrSplitMessage] at h
    cases hc : ClipMessage (splitLoop len (sm - 1).toNat text).2 len cm with
    | none => rw [hc] at h; simp at h
    | some last =>
      rw [hc, Option.map_some'] at h
      have h2 := Option.some.inj h
      have hrem := splitLoop_rem_ne (sm - 1).toNat len text htext
      by_cases hlen : 1 ≤ len
      · intro f hf
        rw [← h2] at hf
        rcases List.mem_append.mp hf with hf | hf
        · exact splitLoop_parts_ne _ len text hlen htext f hf
        · have hfe : f = last := by simpa using hf
          rw [hfe]
          exact ClipMessage_ne _ len cm last hrem hc
      · exfalso
        simp only [ClipMessage] at hc
        have hgt : (((splitLoop len (sm - 1).toNat text).2.length : Nat) : Int) > len := by
          have h1 : 1 ≤ (splitLoop len (sm - 1).toNat text).2.length := by
            cases hr : (splitLoop len (sm - 1).toNat text).2 with
            | nil => exact absurd hr hrem
            | cons a t => simp
          omega
        rw [if_pos hgt] at hc
        have hk : len - (((effMarker cm).length : Nat) : Int) < 0 := by
          have h1 : 1 ≤ (effMarker cm).length := by
            cases he : effMarker cm with
            | nil => exact absurd he (effMarker_ne cm)
            | cons a t => simp
          omega
        rw [if_pos hk] at hc
        exact absurd hc (by simp)

/-- C8 amended witness: nonempty input "abc", budget 1, marker "_",
maxParts 2 gives two nonempty fragments. -/
theorem c8_amended_witness :
    ClipOrSplitMessage [97, 98, 99] 1 [95] 2 = some [[97], [95]] ∧
    ([95] : List Nat) ≠ [] ∧ ([97] : List Nat) ≠ [] :=
  ⟨by decide,
   c8_amended.2 [97, 98, 99] 1 [95] 2 [[97], [95]] (by decide) (by decide) [95] (by decide),
   c8_amended.1 [97, 10, 98] 0 [] [97] (by decide)⟩

/-- C3 counterexample: the backward boundary loop does not return the largest
complete-character index, and can step back more than 3 positions.  The
buffer [0xEF, 0xBF, 0xBD] is the valid encoding of U+FFFD, so it already
ends at a character boundary, yet the loop erases it entirely (offset 0, a
step of 3 from a buffer that needed no backup, because the decoder reports
U+FFFD for a genuinely encoded U+FFFD just as for an error); and on the
buffer of five 0xFF bytes the loop steps back 5 > 3 positions. -/
theorem c3_counterexample :
    (endsComplete [0xEF, 0xBF, 0xBD] = true ∧ clipBackup [0xEF, 0xBF, 0xBD] = []) ∧
    clipBackup [0xFF, 0xFF, 0xFF, 0xFF, 0xFF] = [] := by
  decide

/-- C3 amended: restricted to strictly valid UTF-8 buffers (encodings of
scalar-value lists that contain no U+FFFD), the backup loop of ClipMessage
cuts the truncated buffer exactly at `lastBnd`, the largest character
boundary at or before the cut position `k`; this boundary is at most 3
positions below `k`; it is maximal among boundaries ≤ k; the resulting
prefix ends at a complete character; and the chunk loop of
ClipOrSplitMessage agrees with it whenever the boundary is positive, while
in the corner case `lastBnd = 0 < k` (a first character wider than the cut)
it returns the single-byte — hence incomplete — chunk `take 1` instead. -/
theorem c3_amended : ∀ (rs : List Nat) (k : Nat), StrictRunes rs →
    k ≤ (encList rs).length →
    clipBackup ((encList rs).take k) = (encList rs).take (lastBnd rs k) ∧
    lastBnd rs k ≤ k ∧ k - lastBnd rs k ≤ 3 ∧
    (∀ j, j ≤ k → (∃ a b, rs = a ++ b ∧ (encList a).length = j) →
      j ≤ lastBnd rs k) ∧
    endsComplete ((encList rs).take (lastBnd rs k)) = true ∧
    (1 ≤ lastBnd rs k → 1 ≤ k →
      splitChunk (encList rs) (k : Int) = (encList rs).take (lastBnd rs k)) ∧
    (lastBnd rs k = 0 → 1 ≤ k →
      splitChunk (encList rs) (k : Int) = (encList rs).take 1) := by
  intro rs k hrs hk
  refine ⟨clipBackup_take rs hrs k hk, lastBnd_le rs k, lastBnd_step3 rs k hk,
    ?_, ?_, ?_, ?_⟩
  · intro j hj hbd
    exact lastBnd_ge_boundary rs k j hj hbd
  · obtain ⟨a, b, hab, hlen⟩ := lastBnd_is_boundary rs k
    subst hab
    rw [← hlen, take_encList_boundary]
    exact endsComplete_encList a (strictRunes_append_left hrs)
  · intro hb1 hk1
    exact splitChunk_cut rs hrs k hk1 hk hb1
  · intro hb0 hk1
    exact splitChunk_corner rs hrs k hk1 hk hb0

/-- C3 amended witness: the buffer "a€" = [97, 226, 130, 172] cut at
offset 3 backs up to boundary 1 both in the ClipMessage loop and in the
ClipOrSplitMessage chunk loop. -/
theorem c3_amended_witness :
    StrictRunes [97, 8364] ∧ 3 ≤ (encList [97, 8364]).length ∧
    clipBackup ((encList [97, 8364]).take 3) =
      (encList [97, 8364]).take (lastBnd [97, 8364] 3) ∧
    splitChunk (encList [97, 8364]) ((3 : Nat) : Int) =
      (encList [97, 8364]).take (lastBnd [97, 8364] 3) :=
  ⟨by norm_num [StrictRunes, ValidScalar], by decide,
   (c3_amended [97, 8364] 3 (by norm_num [StrictRunes, ValidScalar]) (by decide)).1,
   (c3_amended [97, 8364] 3 (by norm_num [StrictRunes, ValidScalar])
     (by decide)).2.2.2.2.2.1 (by decide) (by decide)⟩

/-- C1 counterexample: with budget 1 and the 2-byte marker "__",
GetSubLines "ab" emits the fragments "__", "__", "ab", every one of which
exceeds the budget of 1 byte. -/
theorem c1_counterexample :
    GetSubLines [97, 98] 1 [95, 95] = [[95, 95], [95, 95], [97, 98]] ∧
    ∀ f ∈ GetSubLines [97, 98] 1 [95, 95], ¬((f.length : Int) ≤ 1) := by
  decide

/-- C1 amended: on strictly valid UTF-8 input, when the effective marker is
at least 4 bytes long and the budget exceeds the marker by at least 4 bytes,
every fragment returned by GetSubLines, and every fragment of a returning
ClipOrSplitMessage call, has byte length at most the budget and consists of
a strictly valid UTF-8 string optionally followed by the marker (in
particular it never ends inside a multi-byte character of the input). -/
theorem c1_amended : ∀ (qs : List Nat) (M : Int) (cm0 : List Nat),
    StrictRunes qs → 4 ≤ (effMarker cm0).length →
    ((effMarker cm0).length : Int) + 4 ≤ M →
    (∀ f ∈ GetSubLines (encList qs) M cm0, goodFrag M (effMarker cm0) f) ∧
    (∀ (sm : Int) (res : List (List Nat)),
      ClipOrSplitMessage (encList qs) M cm0 sm = some res →
      ∀ f ∈ res, goodFrag M (effMarker cm0) f) := by
  intro qs M cm0 hqs hcm4 hM
  constructor
  · exact GetSubLines_good qs hqs M cm0 hcm4 hM
  · intro sm res hres f hf
    simp only [ClipOrSplitMessage] at hres
    obtain ⟨rs', h1, h2, h3⟩ := splitLoop_good M (by omega) (sm - 1).toNat qs hqs
    obtain ⟨g, hg, hgood⟩ := ClipMessage_good rs' h1 M cm0 (by omega)
    rw [h2, hg, Option.map_some'] at hres
    have hres2 := Option.some.inj hres
    rw [← hres2] at hf
    rcases List.mem_append.mp hf with hf | hf
    · obtain ⟨hfl, ps, hps, hpe⟩ := h3 f hf
      exact ⟨hfl, ps, hps, Or.inl hpe⟩
    · rw [List.mem_singleton.mp hf]
      exact hgood

/-- C1 amended witness: message "a€" with budget 8 and marker "____" gives
the single fragment "a€", within budget and strictly valid. -/
theorem c1_amended_witness :
    StrictRunes [97, 8364] ∧ 4 ≤ (effMarker [95, 95, 95, 95]).length ∧
    ((effMarker [95, 95, 95, 95]).length : Int) + 4 ≤ 8 ∧
    (∀ f ∈ GetSubLines (encList [97, 8364]) 8 [95, 95, 95, 95],
      goodFrag 8 (effMarker [95, 95, 95, 95]) f) :=
  ⟨by norm_num [StrictRunes, ValidScalar], by decide, by decide,
   (c1_amended [97, 8364] 8 [95, 95, 95, 95]
     (by norm_num [StrictRunes, ValidScalar]) (by decide) (by decide)).1⟩

end Helper
